import Mathlib

/-!
Shallow embedding of the cjdk core (files `src/cjdk/_index.py` and
`src/cjdk/_jdk.py`).

Modelling conventions:
- Python strings are Lean `String`s; all character-level work is done on
  `String.data` (a `List Char`), which mirrors CPython's per-character
  semantics for the ASCII data these functions handle (the index file is
  validated to be 7-bit ASCII before use).
- Python tuples of ints, optionally ending in the sentinel string "+", are
  the structure `VKey`: the integer elements plus a flag recording whether
  the trailing "+" sentinel is present.  Python's tuple ordering on such
  tuples is `lexLtB` on `VKey.elems`; the one case Python leaves undefined
  (ordering an int against the string "+", a `TypeError`) is totalised by
  making the sentinel compare greater than every int.  The theorems below
  are only invoked on inputs where CPython's own comparison is defined:
  inside `_match_version` a comparison reaches the sentinel position of the
  request only when `_is_version_compatible_with_spec` has already returned
  `True` for that candidate, so the scan never performs the undefined
  comparison (this is proved implicitly by `scanCandidates_eq_find`).
- Exceptions are `Except PyError`; `PyError.isLookup` records CPython's
  class hierarchy fact `KeyError <: LookupError`.
- Python `sorted` is `insertionSort`, a stable sort; the places the code
  sorts have pairwise-distinct keys, so any stable sort agrees with it.
-/

/-- A single element of a normalized version tuple: an integer, or the
trailing open-ended sentinel "+". -/
inductive VElem where
  | int : Int → VElem
  | plus : VElem
deriving DecidableEq

/-- A normalized version key: the tuple of integers, and whether the
open-ended "+" sentinel is appended. -/
structure VKey where
  ints : List Int
  plus : Bool
deriving DecidableEq

/-- The version key as the plain Python tuple it stands for. -/
def VKey.elems (k : VKey) : List VElem :=
  k.ints.map VElem.int ++ (if k.plus then [VElem.plus] else [])

/-- Ordering on tuple elements: ints numerically; the sentinel "+" is
greater than every int (see the module comment: this position is only
compared where CPython's behaviour is defined). -/
def VElem.ltB : VElem → VElem → Bool
  | .int a, .int b => decide (a < b)
  | .int _, .plus => true
  | .plus, _ => false

/-- Python's lexicographic tuple ordering: element-by-element, a strict
prefix is less than the longer tuple. -/
def lexLtB : List VElem → List VElem → Bool
  | _, [] => false
  | [], _ :: _ => true
  | a :: as, b :: bs => a.ltB b || (a == b && lexLtB as bs)

/-- Python `a < b` on version keys. -/
def vkLt (a b : VKey) : Bool := lexLtB a.elems b.elems

/-- Whitespace accepted around a CPython integer literal (`int(str)`),
ASCII subset. -/
def pyWs (c : Char) : Bool :=
  c == ' ' || c == '\t' || c == '\n' || c == '\r' || c == '\x0b' || c == '\x0c'

/-- Strip leading and trailing whitespace, as `int(str)` does. -/
def stripWsL (s : List Char) : List Char :=
  ((s.dropWhile pyWs).reverse.dropWhile pyWs).reverse

def digitVal (c : Char) : Nat := c.toNat - 48

/-- Digit run with CPython's underscore rule: a single `_` may appear
between two digits, never leading, trailing, or doubled. -/
def pyDigitsAux : Nat → List Char → Option Nat
  | acc, [] => some acc
  | acc, '_' :: c :: cs =>
    if c.isDigit then pyDigitsAux (acc * 10 + digitVal c) cs else none
  | _, ['_'] => none
  | acc, c :: cs =>
    if c.isDigit then pyDigitsAux (acc * 10 + digitVal c) cs else none

def pyDigits : List Char → Option Nat
  | [] => none
  | c :: cs => if c.isDigit then pyDigitsAux (digitVal c) cs else none

/-- CPython `int(str)` on ASCII strings: optional surrounding whitespace,
optional sign, then a digit run (with the underscore rule). -/
def pyInt (s : List Char) : Option Int :=
  match stripWsL s with
  | '+' :: rest => (pyDigits rest).map (fun n => (n : Int))
  | '-' :: rest => (pyDigits rest).map (fun n => -(n : Int))
  | rest => (pyDigits rest).map (fun n => (n : Int))

/-- The separators of `_VER_SEPS = re.compile(r"[.-]")`. -/
def isVerSep (c : Char) : Bool := c == '.' || c == '-'

/-- `re.split(_VER_SEPS, ver)`: split at every '.' or '-', keeping empty
components. -/
def splitVer : List Char → List Char → List (List Char)
  | [], acc => [acc.reverse]
  | c :: cs, acc =>
    if isVerSep c then acc.reverse :: splitVer cs [] else splitVer cs (c :: acc)

/-- `tuple(int(e) for e in norm)`: all components must parse. -/
def parseComps : List (List Char) → Option (List Int)
  | [] => some []
  | c :: cs =>
    match pyInt c, parseComps cs with
    | some n, some ns => some (n :: ns)
    | _, _ => none

/-- Whether `ver.endswith("+")`. -/
def endsPlus (cs : List Char) : Bool := cs.getLast? == some '+'

/-- `ver[:-1]` when the string ends in "+", else the string itself. -/
def stripPlusL (cs : List Char) : List Char :=
  if endsPlus cs then cs.dropLast else cs

/-- `_normalize_version(ver, remove_prefix_1=...)` from `_index.py`:
strip a trailing "+", split on '.' and '-', parse every component as an
int (`none` models the raised `ValueError`), optionally drop a leading
component equal to 1, and re-append the "+" sentinel. -/
def _normalize_version (ver : String) (remove_prefix_1 : Bool) : Option VKey :=
  let cs := ver.data
  let is_plus := endsPlus cs
  let body := stripPlusL cs
  if body.isEmpty then
    some ⟨[], is_plus⟩
  else
    match parseComps (splitVer body []) with
    | none => none
    | some norm =>
      if remove_prefix_1 && !norm.isEmpty && norm.headD 0 == 1 then
        some ⟨norm.tail, is_plus⟩
      else
        some ⟨norm, is_plus⟩

/-- `_is_version_compatible_with_spec(version, spec)` from `_index.py`.
The function reads only the integer part of `version` (its leading
`assert "+" not in version` is modelled at the call site in
`scanCandidates`): if the spec carries the "+" sentinel, a bare sentinel
matches everything and otherwise all but the spec's last component are
pinned with the last acting as an inclusive lower bound; without the
sentinel it is a pure prefix match. -/
def _is_version_compatible_with_spec (version spec : VKey) : Bool :=
  if spec.plus then
    if spec.ints.isEmpty then
      true
    else
      decide (spec.ints.length ≤ version.ints.length)
        && version.ints.take (spec.ints.length - 1) == spec.ints.dropLast
        && decide (spec.ints.getLastD 0 ≤ version.ints.getD (spec.ints.length - 1) 0)
  else
    decide (spec.ints.length ≤ version.ints.length)
      && version.ints.take spec.ints.length == spec.ints

/-- Substring test: Python `needle in hay`. -/
def containsSub (needle hay : List Char) : Bool :=
  hay.tails.any (fun t => needle.isPrefixOf t)

/-- Python `str.lower()` (ASCII). -/
def pyLower (s : String) : String := String.mk (s.data.map Char.toLower)

/-- `is_graal = "graalvm" in vendor.lower()` from `_match_version`. -/
def is_graal (vendor : String) : Bool :=
  containsSub "graalvm".data (pyLower vendor).data

/-- The `remove_prefix_1` argument `_match_version` passes to
`_normalize_version`: `not is_graal`. -/
def _remove_prefix_1 (vendor : String) : Bool := !is_graal vendor

/-- Python exceptions raised by the embedded code.  `KeyError` is a
subclass of `LookupError` in CPython. -/
inductive PyError where
  | keyError : String → PyError
  | lookupError : String → PyError
  | valueError : String → PyError
  | assertionError : PyError
deriving DecidableEq

/-- CPython's class hierarchy: both `KeyError` and `LookupError` are
instances of the common class `LookupError`. -/
def PyError.isLookup : PyError → Bool
  | .keyError _ => true
  | .lookupError _ => true
  | _ => false

/-- `normcands[normcand] = candidate`: Python dict insertion (overwrite the
value if the key is present, else append). -/
def insertAssoc (m : List (VKey × String)) (k : VKey) (v : String) :
    List (VKey × String) :=
  if m.any (fun p => p.1 == k) then
    m.map (fun p => if p.1 == k then (k, v) else p)
  else
    m ++ [(k, v)]

/-- Stable insertion, ordered by `le`. -/
def insSorted (le : α → α → Bool) (x : α) : List α → List α
  | [] => [x]
  | y :: ys => if le x y then x :: y :: ys else y :: insSorted le x ys

/-- Python `sorted(...)` (structural, so concrete instances reduce in the
kernel; agrees with any stable sort, and the call sites sort lists with
pairwise-distinct keys). -/
def insertionSort (le : α → α → Bool) : List α → List α
  | [] => []
  | x :: xs => insSorted le x (insertionSort le xs)

/-- Descending key order used by `sorted(normcands.keys(), reverse=True)`:
`x` before `y` when `x`'s key is not smaller. -/
def vkeyDescLe (x y : VKey × String) : Bool := !(vkLt x.1 y.1)

/-- `sorted(normcands.keys(), reverse=True)` together with the dict lookup
`normcands[normcand]`: since the dict's keys are pairwise distinct, walking
the sorted keys and looking each one up is walking the key-sorted entries. -/
def sortDescEntries (m : List (VKey × String)) : List (VKey × String) :=
  insertionSort vkeyDescLe m

/-- The scan loop of `_match_version`: for each candidate in descending
key order, test compatibility (whose `assert "+" not in version` fires
first, modelled as `assertionError`); return the first compatible
candidate's original string; once a non-compatible candidate is not
greater than the request, stop.  `ok none` means the loop fell through to
the `raise LookupError` line. -/
def scanCandidates : List (VKey × String) → VKey → Except PyError (Option String)
  | [], _ => .ok none
  | (k, orig) :: rest, normreq =>
    if k.plus then .error .assertionError
    else if _is_version_compatible_with_spec k normreq then .ok (some orig)
    else if vkLt normreq k then scanCandidates rest normreq
    else .ok none

/-- One iteration of `_match_version`'s first loop: normalize the
candidate, skipping it (with a warning) on failure, else store it in the
dict. -/
def normStep (rp : Bool) (m : List (VKey × String)) (c : String) :
    List (VKey × String) :=
  match _normalize_version c rp with
  | none => m
  | some k => insertAssoc m k c

/-- The dict built by `_match_version`'s first loop: normalize each
candidate with `remove_prefix_1 = not is_graal`, skipping (with a warning)
candidates that fail to normalize. -/
def normCands (candidates : List String) (rp : Bool) : List (VKey × String) :=
  candidates.foldl (normStep rp) []

/-- `_match_version(vendor, candidates, requested)` from `_index.py`.  A
`ValueError` from normalizing the requested version propagates (its message
names the string after the "+" strip, as in the source). -/
def _match_version (vendor : String) (candidates : List String)
    (requested : String) : Except PyError String :=
  let rp := _remove_prefix_1 vendor
  match _normalize_version requested rp with
  | none =>
    .error (.valueError ("Invalid version string: "
      ++ String.mk (stripPlusL requested.data)))
  | some normreq =>
    match scanCandidates (sortDescEntries (normCands candidates rp)) normreq with
    | .error e => .error e
    | .ok (some s) => .ok s
    | .ok none =>
      .error (.lookupError ("No matching version for '" ++ vendor ++ ":"
        ++ requested ++ "'"))

/-- The subset of `Configuration` read by `available_jdks` and
`resolve_jdk_version`. -/
structure Configuration where
  os : String
  arch : String
  vendor : String
  version : String

/-- The JDK index: a nested mapping os → arch → "jdk@vendor" → version →
url, as parsed from the catalog JSON (JSON objects have pairwise-distinct
keys, so first-match lookup is dict lookup). -/
abbrev Index := List (String × List (String × List (String × List (String × String))))

/-- Python dict lookup (`d[k]`, as `Option`). -/
def lookupStr (m : List (String × α)) (k : String) : Option α :=
  (m.find? (fun p => p.1 == k)).map (fun p => p.2)

/-- Python `vendor.removeprefix("jdk@")`. -/
def stripJdkAt (vendor : String) : String :=
  if "jdk@".data.isPrefixOf vendor.data then String.mk (vendor.data.drop 4)
  else vendor

/-- Ascending order on (vendor, version) pairs: Python's tuple-of-strings
comparison. -/
def strPairLe (x y : String × String) : Bool :=
  decide (x.1 < y.1 ∨ (x.1 = y.1 ∧ x.2 ≤ y.2))

/-- `available_jdks(index, conf)` from `_index.py`: the sorted
(vendor, version) pairs under `index[conf.os][conf.arch]`, with the
"jdk@" vendor prefix stripped; `[]` when either level is absent. -/
def available_jdks (index : Index) (conf : Configuration) :
    List (String × String) :=
  match lookupStr index conf.os with
  | none => []
  | some archs =>
    match lookupStr archs conf.arch with
    | none => []
    | some jdks =>
      insertionSort strPairLe
        (jdks.flatMap (fun vv => vv.2.map (fun ver => (stripJdkAt vv.1, ver.1))))

/-- `[i[1] for i in jdks if i[0] == conf.vendor]` in `resolve_jdk_version`. -/
def versionsFor (index : Index) (conf : Configuration) : List String :=
  ((available_jdks index conf).filter (fun i => i.1 == conf.vendor)).map
    (fun i => i.2)

/-- `resolve_jdk_version(index, conf)` from `_index.py`: `KeyError` when no
version exists for the vendor; exceptions from `_match_version` propagate;
a falsy (empty) matched string is reported as the second `KeyError`. -/
def resolve_jdk_version (index : Index) (conf : Configuration) :
    Except PyError String :=
  let versions := versionsFor index conf
  if versions.isEmpty then
    .error (.keyError ("No " ++ conf.vendor ++ " JDK is available for "
      ++ conf.os ++ "-" ++ conf.arch))
  else
    match _match_version conf.vendor versions conf.version with
    | .error e => .error e
    | .ok matched =>
      if matched == "" then
        .error (.keyError ("No JDK matching version " ++ conf.version
          ++ " for " ++ conf.os ++ "-" ++ conf.arch ++ "-" ++ conf.vendor))
      else
        .ok matched

/-- A directory tree as observed by `_jdk.py` through `pathlib`: regular
files and directories with named entries (real directories have
pairwise-distinct entry names; lookup is first-match). -/
inductive FSNode where
  | file : FSNode
  | dir : List (String × FSNode) → FSNode

/-- Child entry of a directory node. -/
def FSNode.child (t : FSNode) (name : String) : Option FSNode :=
  match t with
  | .file => none
  | .dir es => (es.find? (fun p => p.1 == name)).map (fun p => p.2)

/-- Resolve a relative path from the root `t`. -/
def resolvePath (t : FSNode) : List String → Option FSNode
  | [] => some t
  | n :: rest =>
    match t.child n with
    | none => none
    | some c => resolvePath c rest

/-- `Path.is_dir()` on a resolved path. -/
def isDirAt (t : FSNode) (p : List String) : Bool :=
  match resolvePath t p with
  | some (.dir _) => true
  | _ => false

/-- `Path.is_file()` on a resolved path. -/
def isFileAt (t : FSNode) (p : List String) : Bool :=
  match resolvePath t p with
  | some .file => true
  | _ => false

/-- `_looks_like_java_home(path)` from `_jdk.py`: `path/bin` is a directory
containing a file `java` or `java.exe`. -/
def _looks_like_java_home (t : FSNode) (p : List String) : Bool :=
  isDirAt t (p ++ ["bin"])
    && (isFileAt t (p ++ ["bin", "java"]) || isFileAt t (p ++ ["bin", "java.exe"]))

/-- `_contains_single_subdir(path)` from `_jdk.py`: the name of the unique
subdirectory of `path`, if there is exactly one. -/
def _contains_single_subdir (t : FSNode) (p : List String) : Option String :=
  match resolvePath t p with
  | some (.dir es) =>
    match es.filter (fun e => match e.2 with | .dir _ => true | _ => false) with
    | [e] => some e.1
    | _ => none
  | _ => none

/-- `find_home(path, _recursion_depth=2)` from `_jdk.py`; the error carries
the `path` named by the raised `RuntimeError`.  The recursion is on the
depth counter (`_recursion_depth > 0` is `depth = d + 1`, and the recursive
call passes `depth - 1 = d`). -/
def find_home (t : FSNode) (p : List String) (depth : Nat := 2) :
    Except (List String) (List String) :=
  if _looks_like_java_home t p then .ok p
  else if _looks_like_java_home t (p ++ ["Contents", "Home"]) then
    .ok (p ++ ["Contents", "Home"])
  else
    match depth with
    | 0 => .error p
    | d + 1 =>
      match _contains_single_subdir t p with
      | some name => find_home t (p ++ [name]) d
      | none => .error p

/-- A parsed JSON document as produced by `response.json()` on the
(ASCII-validated) catalog body.  Objects carry their insertion order;
numbers in the catalog schema are modelled as integers. -/
inductive Json where
  | null : Json
  | bool : Bool → Json
  | int : Int → Json
  | str : String → Json
  | arr : List Json → Json
  | obj : List (String × Json) → Json

mutual

/-- CPython `==` on parsed JSON documents (restricted to documents whose
objects have pairwise-distinct keys, as parsed dicts do): dict equality is
order-insensitive. -/
def jsonEqv : Json → Json → Bool
  | .null, .null => true
  | .bool x, .bool y => x == y
  | .int x, .int y => x == y
  | .str x, .str y => x == y
  | .arr xs, .arr ys => jsonEqvL xs ys
  | .obj ea, .obj eb => ea.length == eb.length && jsonEqvObj ea eb
  | _, _ => false

def jsonEqvL : List Json → List Json → Bool
  | [], [] => true
  | x :: xs, y :: ys => jsonEqv x y && jsonEqvL xs ys
  | _, _ => false

def jsonEqvObj : List (String × Json) → List (String × Json) → Bool
  | [], _ => true
  | (k, v) :: es, eb =>
    (match lookupStr eb k with
     | some w => jsonEqv v w
     | none => false)
      && jsonEqvObj es eb

end

/-- Pairwise-distinct keys in one object level. -/
def distinctKeys : List (String × Json) → Bool
  | [] => true
  | (k, _) :: es => es.all (fun e => !(e.1 == k)) && distinctKeys es

mutual

/-- Every object in the document has pairwise-distinct keys (true of any
document produced by `json` parsing, whose dicts keep one value per key). -/
def wfJson : Json → Bool
  | .arr xs => wfJsonL xs
  | .obj es => distinctKeys es && wfJsonObj es
  | _ => true

def wfJsonL : List Json → Bool
  | [] => true
  | x :: xs => wfJson x && wfJsonL xs

def wfJsonObj : List (String × Json) → Bool
  | [] => true
  | (_, v) :: es => wfJson v && wfJsonObj es

end

def hexDigit (n : Nat) : Char :=
  if n < 10 then Char.ofNat (48 + n) else Char.ofNat (87 + n)

def uEscape (n : Nat) : List Char :=
  ['\\', 'u', hexDigit (n / 4096 % 16), hexDigit (n / 256 % 16),
   hexDigit (n / 16 % 16), hexDigit (n % 16)]

/-- One character under `json.dump`'s default `ensure_ascii=True` escaping:
short escapes for the common controls, `\uXXXX` (with surrogate pairs) for
everything outside printable ASCII. -/
def escapeChar (c : Char) : List Char :=
  if c = '"' then ['\\', '"']
  else if c = '\\' then ['\\', '\\']
  else if c = '\n' then ['\\', 'n']
  else if c = '\t' then ['\\', 't']
  else if c = '\r' then ['\\', 'r']
  else if c = '\x08' then ['\\', 'b']
  else if c = '\x0c' then ['\\', 'f']
  else if c.toNat < 32 || c.toNat > 126 then
    if c.toNat < 65536 then uEscape c.toNat
    else uEscape (55296 + (c.toNat - 65536) / 1024)
      ++ uEscape (56320 + (c.toNat - 65536) % 1024)
  else [c]

/-- A JSON string literal as `json.dump` writes it. -/
def pyJsonQuote (s : String) : String :=
  String.mk ('"' :: (s.data.flatMap escapeChar ++ ['"']))

/-- `indent=2`: the indentation prefix at nesting depth `d`. -/
def jsonInd (d : Nat) : String := String.mk (List.replicate (2 * d) ' ')

def joinSep (sep : String) : List String → String
  | [] => ""
  | [x] => x
  | x :: y :: xs => x ++ sep ++ joinSep sep (y :: xs)

/-- `sorted(d.items())` in `json.encoder` under `sort_keys=True`: keys are
pairwise distinct in a dict, so the tuple comparison never reaches the
values and the sort orders by key alone. -/
def fstLeB (a b : String × α) : Bool := decide (a.1 ≤ b.1)

/-- `json.dump(value, ..., indent=2, sort_keys=True)` at nesting depth `d`:
objects and arrays open on their own line, items are indented two more
spaces and separated by ",\n", keys are emitted in sorted order followed by
": ".  Each object's entries are rendered and then stably sorted by key;
since rendering an entry does not depend on its siblings, this emits the
same text as sorting first. -/
def pyJsonDump : Json → Nat → String
  | .null, _ => "null"
  | .bool true, _ => "true"
  | .bool false, _ => "false"
  | .int n, _ => toString n
  | .str s, _ => pyJsonQuote s
  | .arr xs, d =>
    if xs.isEmpty then "[]"
    else
      "[\n"
        ++ joinSep ",\n"
          (xs.attach.map (fun x => jsonInd (d + 1) ++ pyJsonDump x.1 (d + 1)))
        ++ "\n" ++ jsonInd d ++ "]"
  | .obj es, d =>
    if es.isEmpty then "\x7b\x7d"
    else
      "\x7b\n"
        ++ joinSep ",\n"
          ((insertionSort fstLeB
            (es.attach.map (fun e => (e.1.1,
              jsonInd (d + 1) ++ pyJsonQuote e.1.1 ++ ": "
                ++ pyJsonDump e.1.2 (d + 1))))).map (fun r => r.2))
        ++ "\n" ++ jsonInd d ++ "\x7d"
termination_by j _ => sizeOf j
decreasing_by
· have hm := List.sizeOf_lt_of_mem x.2
  simp only [Json.arr.sizeOf_spec]
  omega
· have hm := List.sizeOf_lt_of_mem e.2
  obtain ⟨⟨a, b⟩, hmem⟩ := e
  simp only [Prod.mk.sizeOf_spec] at hm
  simp only [Json.obj.sizeOf_spec]
  omega

/-- The bytes `_fetch_index` persists to `dest`: the parsed document
re-serialized by `json.dump(index, outfile, indent=2, sort_keys=True)`
through a file opened with ASCII encoding and untranslated "\n" line
endings. -/
def _fetch_index_payload (index : Json) : String := pyJsonDump index 0

/-- Recursive form of the prefix-match branch of
`_is_version_compatible_with_spec` (proved equivalent below): the spec's
components are consumed one by one against equal candidate components. -/
def compatPrefR : List Int → List Int → Bool
  | _, [] => true
  | [], _ :: _ => false
  | v :: vs, s :: ss => v == s && compatPrefR vs ss

/-- Recursive form of the open-ended branch of
`_is_version_compatible_with_spec` (proved equivalent below): all but the
spec's last component are pinned, the last is an inclusive lower bound. -/
def compatPlusR : List Int → List Int → Bool
  | _, [] => true
  | [], _ :: _ => false
  | v :: _, [m] => decide (m ≤ v)
  | v :: vs, s :: ss => v == s && compatPlusR vs ss

/-- Integer components as tuple elements. -/
def mapInt (l : List Int) : List VElem := l.map VElem.int

/-- Dropping a leading component equal to exactly 1. -/
def drop1 (l : List Int) : List Int := if l.headD 0 == 1 then l.tail else l

/-- Two character lists spell the same components with possibly different
separator choices: positionwise, either both characters are separators or
they are equal. -/
def sepEquivB : List Char → List Char → Bool
  | [], [] => true
  | a :: as, b :: bs => ((isVerSep a && isVerSep b) || a == b) && sepEquivB as bs
  | _, _ => false

/-- The matcher returns the newest candidate overall for this request:
whenever every candidate key is sentinel-free and at least one candidate
normalizes, `_match_version` succeeds with a candidate whose normalized key
is greatest among all candidates' keys. -/
def returnsNewest (vendor requested : String) : Prop :=
  ∀ cands : List String,
    (∀ c ∈ cands, ∀ k, _normalize_version c (_remove_prefix_1 vendor) = some k →
      k.plus = false) →
    (∃ c ∈ cands, ∃ k, _normalize_version c (_remove_prefix_1 vendor) = some k) →
    ∃ s ks, _match_version vendor cands requested = .ok s ∧ s ∈ cands ∧
      _normalize_version s (_remove_prefix_1 vendor) = some ks ∧
      ∀ c ∈ cands, ∀ k, _normalize_version c (_remove_prefix_1 vendor) = some k →
        (k = ks ∨ lexLtB k.elems ks.elems = true)

/-- A catalog whose only entry for linux-amd64 and vendor "foo" is the
(legal JSON) empty version string. -/
def emptyVersionIndex : Index :=
  [("linux", [("amd64", [("jdk@foo", [("", "tgz+https://example.com/x")])])])]

/-- Configuration requesting vendor "foo" with the empty version
specifier, which every candidate satisfies. -/
def emptyVersionConf : Configuration :=
  ⟨"linux", "amd64", "foo", ""⟩

/-- `root/only-child/bin/java`. -/
def jdkTreeWrapped : FSNode :=
  .dir [("only-child", .dir [("bin", .dir [("java", .file)])])]

/-- `root/Contents/Home/bin/java` (macOS bundle layout). -/
def jdkTreeMac : FSNode :=
  .dir [("Contents", .dir [("Home", .dir [("bin", .dir [("java", .file)])])])]

/-- A home nested three single-child levels deep:
`root/a/b/c/bin/java`. -/
def jdkTreeDeep : FSNode :=
  .dir [("a", .dir [("b", .dir [("c", .dir [("bin", .dir [("java", .file)])])])])]

/-- A Java home at the root itself. -/
def jdkTreeHome : FSNode := .dir [("bin", .dir [("java", .file)])]

/-- A catalog document, keys out of sorted order. -/
def sampleDocA : Json :=
  .obj [("linux", .obj [("amd64", .obj [("jdk@foo", .obj
    [("11.0.2", .str "tgz+https://example.com/a"),
     ("1.8.0", .str "tgz+https://example.com/b")])])]),
    ("windows", .obj [])]

/-- The same document with every object's insertion order changed. -/
def sampleDocB : Json :=
  .obj [("windows", .obj []),
    ("linux", .obj [("amd64", .obj [("jdk@foo", .obj
    [("1.8.0", .str "tgz+https://example.com/b"),
     ("11.0.2", .str "tgz+https://example.com/a")])])])]

theorem VElem.ltB_trans {a b c : VElem} (h1 : a.ltB b = true)
    (h2 : b.ltB c = true) : a.ltB c = true := by
  cases a <;> cases b <;> cases c <;>
    simp_all [VElem.ltB] <;> omega

theorem VElem.ltB_asymm {a b : VElem} (h : a.ltB b = true) :
    b.ltB a = false := by
  cases a <;> cases b <;> simp_all [VElem.ltB] <;> omega

theorem VElem.ltB_tri (a b : VElem) :
    a = b ∨ a.ltB b = true ∨ b.ltB a = true := by
  cases a with
  | int x =>
    cases b with
    | int y =>
      rcases lt_trichotomy x y with h | h | h
      · exact Or.inr (Or.inl (by simp [VElem.ltB, h]))
      · exact Or.inl (by rw [h])
      · exact Or.inr (Or.inr (by simp [VElem.ltB, h]))
    | plus => exact Or.inr (Or.inl rfl)
  | plus =>
    cases b with
    | int y => exact Or.inr (Or.inr rfl)
    | plus => exact Or.inl rfl

theorem lexLtB_trans : ∀ (a b c : List VElem), lexLtB a b = true →
    lexLtB b c = true → lexLtB a c = true := by
  intro a
  induction a with
  | nil =>
    intro b c h1 h2
    cases b with
    | nil => exact h2
    | cons y ys =>
      cases c with
      | nil => simp [lexLtB] at h2
      | cons z zs => simp [lexLtB]
  | cons x xs ih =>
    intro b c h1 h2
    cases b with
    | nil => simp [lexLtB] at h1
    | cons y ys =>
      cases c with
      | nil => simp [lexLtB] at h2
      | cons z zs =>
        simp only [lexLtB, Bool.or_eq_true, Bool.and_eq_true, beq_iff_eq] at h1 h2 ⊢
        rcases h1 with h1 | ⟨rfl, h1⟩
        · rcases h2 with h2 | ⟨rfl, h2⟩
          · exact Or.inl (VElem.ltB_trans h1 h2)
          · exact Or.inl h1
        · rcases h2 with h2 | ⟨rfl, h2⟩
          · exact Or.inl h2
          · exact Or.inr ⟨rfl, ih ys zs h1 h2⟩

theorem VElem.ltB_irrefl (a : VElem) : a.ltB a = false := by
  cases a <;> simp [VElem.ltB]

theorem lexLtB_asymm : ∀ (a b : List VElem), lexLtB a b = true →
    lexLtB b a = false := by
  intro a
  induction a with
  | nil =>
    intro b h
    cases b with
    | nil => simp [lexLtB] at h
    | cons y ys => simp [lexLtB]
  | cons x xs ih =>
    intro b h
    cases b with
    | nil => simp [lexLtB] at h
    | cons y ys =>
      simp only [lexLtB, Bool.or_eq_true, Bool.and_eq_true, beq_iff_eq] at h
      rcases h with h | ⟨rfl, h⟩
      · have h1 : y.ltB x = false := VElem.ltB_asymm h
        have hne : y ≠ x := by
          intro he
          rw [he, VElem.ltB_irrefl] at h
          exact Bool.false_ne_true h
        simp only [lexLtB, h1, Bool.false_or]
        simp [hne]
      · have h2 : lexLtB ys xs = false := ih ys h
        simp only [lexLtB, VElem.ltB_irrefl, Bool.false_or, h2,
          Bool.and_false]

theorem lexLtB_tri : ∀ (a b : List VElem),
    a = b ∨ lexLtB a b = true ∨ lexLtB b a = true := by
  intro a
  induction a with
  | nil =>
    intro b
    cases b with
    | nil => exact Or.inl rfl
    | cons y ys => exact Or.inr (Or.inl rfl)
  | cons x xs ih =>
    intro b
    cases b with
    | nil => exact Or.inr (Or.inr rfl)
    | cons y ys =>
      rcases VElem.ltB_tri x y with rfl | h | h
      · rcases ih ys with rfl | h | h
        · exact Or.inl rfl
        · refine Or.inr (Or.inl ?_)
          simp only [lexLtB, h]
          simp
        · refine Or.inr (Or.inr ?_)
          simp only [lexLtB, h]
          simp
      · refine Or.inr (Or.inl ?_)
        simp only [lexLtB, h]
        simp
      · refine Or.inr (Or.inr ?_)
        simp only [lexLtB, h]
        simp

theorem VKey.elems_inj {a b : VKey} (h : a.elems = b.elems) : a = b := by
  have hint : Function.Injective VElem.int := fun x y hxy => by
    cases hxy
    rfl
  obtain ⟨ia, pa⟩ := a
  obtain ⟨ib, pb⟩ := b
  simp only [VKey.elems] at h
  cases pa <;> cases pb
  · have h' : List.map VElem.int ia = List.map VElem.int ib := by
      simpa using h
    rw [List.map_injective_iff.mpr hint h']
  · exfalso
    have h' : List.map VElem.int ia = List.map VElem.int ib ++ [VElem.plus] := by
      simpa using h
    have hmem : VElem.plus ∈ List.map VElem.int ia := by
      rw [h']
      simp
    simp only [List.mem_map] at hmem
    obtain ⟨x, _, hx⟩ := hmem
    cases hx
  · exfalso
    have h' : List.map VElem.int ia ++ [VElem.plus] = List.map VElem.int ib := by
      simpa using h
    have hmem : VElem.plus ∈ List.map VElem.int ib := by
      rw [← h']
      simp
    simp only [List.mem_map] at hmem
    obtain ⟨x, _, hx⟩ := hmem
    cases hx
  · have h' : List.map VElem.int ia ++ [VElem.plus]
        = List.map VElem.int ib ++ [VElem.plus] := by
      simpa using h
    have := List.append_cancel_right h'
    rw [List.map_injective_iff.mpr hint this]

theorem compat_nonplus_iff (v s : List Int) (pv : Bool) :
    _is_version_compatible_with_spec ⟨v, pv⟩ ⟨s, false⟩ = true
      ↔ compatPrefR v s = true := by
  induction s generalizing v with
  | nil => simp [_is_version_compatible_with_spec, compatPrefR]
  | cons a ss ih =>
    cases v with
    | nil => simp [_is_version_compatible_with_spec, compatPrefR]
    | cons b vs =>
      have hih := ih vs
      simp only [_is_version_compatible_with_spec, if_neg, Bool.false_eq_true,
        List.length_cons, List.take_succ_cons, Bool.and_eq_true,
        decide_eq_true_eq, beq_iff_eq, List.cons.injEq, compatPrefR,
        reduceIte] at hih ⊢
      constructor
      · rintro ⟨hl, hb, ht⟩
        exact ⟨hb, hih.mp ⟨by omega, ht⟩⟩
      · rintro ⟨hb, hr⟩
        obtain ⟨hl, ht⟩ := hih.mpr hr
        exact ⟨by omega, hb, ht⟩

theorem compat_bare (v : List Int) (pv : Bool) :
    _is_version_compatible_with_spec ⟨v, pv⟩ ⟨[], true⟩ = true := by
  simp [_is_version_compatible_with_spec]

theorem compat_plus_iff (v s : List Int) (pv : Bool) :
    _is_version_compatible_with_spec ⟨v, pv⟩ ⟨s, true⟩ = true
      ↔ compatPlusR v s = true := by
  induction s generalizing v with
  | nil => simp [_is_version_compatible_with_spec, compatPlusR]
  | cons a ss ih =>
    cases ss with
    | nil =>
      cases v with
      | nil => simp [_is_version_compatible_with_spec, compatPlusR]
      | cons b vs => simp [_is_version_compatible_with_spec, compatPlusR]
    | cons a2 ss2 =>
      cases v with
      | nil => simp [_is_version_compatible_with_spec, compatPlusR]
      | cons b vs =>
        have hih := ih vs
        simp [_is_version_compatible_with_spec] at hih ⊢
        simp [compatPlusR]
        rw [← hih]
        tauto

theorem compatPrefR_refl (s : List Int) : compatPrefR s s = true := by
  induction s with
  | nil => rfl
  | cons a ss ih => simp [compatPrefR, ih]

theorem compatPrefR_not_lt (v s : List Int) (h : compatPrefR v s = true) :
    lexLtB (mapInt v) (mapInt s) = false := by
  induction s generalizing v with
  | nil => cases v <;> simp [mapInt, lexLtB]
  | cons a ss ih =>
    cases v with
    | nil => simp [compatPrefR] at h
    | cons b vs =>
      simp only [compatPrefR, Bool.and_eq_true, beq_iff_eq] at h
      obtain ⟨rfl, h⟩ := h
      have hvs := ih vs h
      simp only [mapInt] at hvs
      simp [mapInt, lexLtB, VElem.ltB_irrefl, hvs]

theorem compatPlusR_not_lt (v s : List Int) (h : compatPlusR v s = true) :
    lexLtB (mapInt v) (mapInt s) = false := by
  induction s generalizing v with
  | nil => cases v <;> simp [mapInt, lexLtB]
  | cons a ss ih =>
    cases ss with
    | nil =>
      cases v with
      | nil => simp [compatPlusR] at h
      | cons b vs =>
        simp only [compatPlusR, decide_eq_true_eq] at h
        simp only [mapInt, List.map_cons, List.map_nil, lexLtB]
        have h1 : VElem.ltB (VElem.int b) (VElem.int a) = false := by
          simp [VElem.ltB]
          omega
        cases vs <;> simp [lexLtB, h1]
    | cons a2 ss2 =>
      cases v with
      | nil => simp [compatPlusR] at h
      | cons b vs =>
        simp only [compatPlusR, Bool.and_eq_true, beq_iff_eq] at h
        obtain ⟨rfl, h⟩ := h
        have hvs := ih vs h
        simp only [mapInt, List.map_cons] at hvs
        simp [mapInt, lexLtB, VElem.ltB_irrefl, hvs]

theorem between_plus_compat : ∀ (s v : List Int), s ≠ [] →
    lexLtB (mapInt s) (mapInt v) = true →
    lexLtB (mapInt s ++ [VElem.plus]) (mapInt v) = false →
    compatPlusR v s = true := by
  intro s
  induction s with
  | nil => intro v hne; exact absurd rfl hne
  | cons a ss ih =>
    intro v _ h1 h2
    cases ss with
    | nil =>
      cases v with
      | nil => simp [mapInt, lexLtB] at h1
      | cons b vs =>
        simp only [mapInt, List.map_cons, List.map_nil, List.nil_append,
          List.cons_append, lexLtB, Bool.or_eq_true, Bool.and_eq_true,
          beq_iff_eq] at h1 h2
        simp only [Bool.or_eq_false_iff, Bool.and_eq_false_iff] at h2
        have hab : ¬ (VElem.ltB (VElem.int a) (VElem.int b) = true) := by
          intro hc
          rw [h2.1] at hc
          exact Bool.false_ne_true hc
        rcases h1 with h1 | ⟨h1, _⟩
        · exact absurd h1 hab
        · have : a = b := by
            injection h1  -- VElem.int a = VElem.int b
          subst this
          simp [compatPlusR]
    | cons a2 ss2 =>
      cases v with
      | nil => simp [mapInt, lexLtB] at h1
      | cons b vs =>
        simp only [mapInt, List.map_cons, List.cons_append, lexLtB,
          Bool.or_eq_true, Bool.and_eq_true, beq_iff_eq] at h1 h2
        simp only [Bool.or_eq_false_iff, Bool.and_eq_false_iff] at h2
        have hab : ¬ (VElem.ltB (VElem.int a) (VElem.int b) = true) := by
          intro hc
          rw [h2.1] at hc
          exact Bool.false_ne_true hc
        rcases h1 with h1 | ⟨heq, h1⟩
        · exact absurd h1 hab
        · have hba : a = b := by injection heq
          subst hba
          rcases h2.2 with h2' | h2'
          · exfalso
            simp at h2'
          · have hrec : compatPlusR vs (a2 :: ss2) = true := by
              refine ih vs (List.cons_ne_nil a2 ss2) h1 ?_
              simpa [mapInt] using h2'
            simp [compatPlusR, hrec]

theorem elems_nonplus (v : List Int) :
    (⟨v, false⟩ : VKey).elems = mapInt v := by
  simp [VKey.elems, mapInt]

theorem elems_plus (v : List Int) :
    (⟨v, true⟩ : VKey).elems = mapInt v ++ [VElem.plus] := by
  simp [VKey.elems, mapInt]

theorem mapInt_inj {a b : List Int} (h : mapInt a = mapInt b) : a = b := by
  have hint : Function.Injective VElem.int := fun x y hxy => by
    cases hxy
    rfl
  exact List.map_injective_iff.mpr hint h

/-- Once the scan reaches a candidate that is incompatible and not greater
than the request, no smaller candidate can be compatible: the early stop in
`_match_version` is safe (this also resolves the open-ended branch, whose
monotonicity the source comments leave as an open question). -/
theorem breakSafe (k kn r : VKey) (hk : k.plus = false) (hkn : kn.plus = false)
    (hc : _is_version_compatible_with_spec k r = false)
    (hle : lexLtB r.elems k.elems = false)
    (hlt : lexLtB kn.elems k.elems = true) :
    _is_version_compatible_with_spec kn r = false := by
  by_contra hcn'
  rw [Bool.not_eq_false] at hcn'
  obtain ⟨vk, pk⟩ := k
  obtain ⟨vn, pn⟩ := kn
  obtain ⟨s, ps⟩ := r
  simp only at hk hkn
  subst hk
  subst hkn
  cases ps with
  | false =>
    simp only [elems_nonplus] at hlt hle
    have hc2 : compatPrefR vk s = false := by
      rw [Bool.eq_false_iff]
      intro hx
      rw [← compat_nonplus_iff vk s false] at hx
      simp [hx] at hc
    rw [compat_nonplus_iff] at hcn'
    have h1 := compatPrefR_not_lt _ _ hcn'
    rcases lexLtB_tri (mapInt vk) (mapInt s) with he | hl | hg
    · have hvs : vk = s := mapInt_inj he
      subst hvs
      simp [compatPrefR_refl] at hc2
    · have hh := lexLtB_trans _ _ _ hlt hl
      simp [hh] at h1
    · simp [hg] at hle
  | true =>
    by_cases hs : s = []
    · subst hs
      simp [compat_bare] at hc
    · simp only [elems_nonplus, elems_plus] at hlt hle
      have hc2 : compatPlusR vk s = false := by
        rw [Bool.eq_false_iff]
        intro hx
        rw [← compat_plus_iff vk s false] at hx
        simp [hx] at hc
      rw [compat_plus_iff] at hcn'
      have h1 := compatPlusR_not_lt _ _ hcn'
      have hslt : lexLtB (mapInt s) (mapInt vk) = true := by
        rcases lexLtB_tri (mapInt vn) (mapInt s) with he | hl | hg
        · rw [← mapInt_inj he]
          exact hlt
        · simp [hl] at h1
        · exact lexLtB_trans _ _ _ hg hlt
      have hbp := between_plus_compat s vk hs hslt hle
      simp [hbp] at hc2

/-- Over a strictly-descending candidate list with sentinel-free keys, the
early-stopping scan returns exactly the first compatible candidate of the
full list (and no assertion fires). -/
theorem scanCandidates_eq_find :
    ∀ (pairs : List (VKey × String)) (r : VKey),
    (∀ p ∈ pairs, p.1.plus = false) →
    List.Pairwise (fun x y => lexLtB y.1.elems x.1.elems = true) pairs →
    scanCandidates pairs r =
      .ok ((pairs.find? (fun p =>
        _is_version_compatible_with_spec p.1 r)).map (fun p => p.2)) := by
  intro pairs
  induction pairs with
  | nil =>
    intro r _ _
    simp [scanCandidates]
  | cons hd rest ih =>
    intro r hpf hdesc
    obtain ⟨k, o⟩ := hd
    have hk : k.plus = false := hpf (k, o) (List.mem_cons_self _ _)
    by_cases hc : _is_version_compatible_with_spec k r = true
    · simp [scanCandidates, hk, hc, List.find?_cons_of_pos]
    · rw [Bool.not_eq_true] at hc
      rw [List.find?_cons_of_neg _ (by simp [hc])]
      by_cases hgt : vkLt r k = true
      · have hscan : scanCandidates ((k, o) :: rest) r = scanCandidates rest r := by
          simp [scanCandidates, hk, hc, hgt]
        rw [hscan]
        exact ih r (fun p hp => hpf p (List.mem_cons_of_mem _ hp))
          (List.Pairwise.sublist (List.sublist_cons_self _ _) hdesc)
      · have hscan : scanCandidates ((k, o) :: rest) r = .ok none := by
          simp [scanCandidates, hk, hc, hgt]
        rw [hscan]
        have hnone : rest.find? (fun p =>
            _is_version_compatible_with_spec p.1 r) = none := by
          rw [List.find?_eq_none]
          intro p hp
          have hdlt : lexLtB p.1.elems k.elems = true :=
            (List.pairwise_cons.mp hdesc).1 p hp
          have := breakSafe k p.1 r hk (hpf p (List.mem_cons_of_mem _ hp)) hc
            (by rw [Bool.not_eq_true] at hgt; exact hgt) hdlt
          simp [this]
        rw [hnone]
        rfl

/-- In a strictly-descending list, the first element satisfying a predicate
has the greatest key among all elements satisfying it. -/
theorem find_desc_max :
    ∀ (pairs : List (VKey × String)) (pred : VKey × String → Bool)
      (p : VKey × String),
    List.Pairwise (fun x y => lexLtB y.1.elems x.1.elems = true) pairs →
    pairs.find? pred = some p →
    ∀ q ∈ pairs, pred q = true → q = p ∨ lexLtB q.1.elems p.1.elems = true := by
  intro pairs
  induction pairs with
  | nil =>
    intro pred p _ hf
    simp [List.find?] at hf
  | cons hd rest ih =>
    intro pred p hdesc hf q hq hpred
    by_cases hhd : pred hd = true
    · rw [List.find?_cons_of_pos _ hhd] at hf
      injection hf with hf
      subst hf
      rcases List.mem_cons.mp hq with rfl | hq'
      · exact Or.inl rfl
      · exact Or.inr ((List.pairwise_cons.mp hdesc).1 q hq')
    · rw [List.find?_cons_of_neg _ hhd] at hf
      rcases List.mem_cons.mp hq with rfl | hq'
      · exact absurd hpred hhd
      · exact ih pred p (List.Pairwise.sublist (List.sublist_cons_self _ _) hdesc)
          hf q hq' hpred

theorem insertAssoc_mem {m : List (VKey × String)} {k : VKey} {v : String}
    {p : VKey × String} (h : p ∈ insertAssoc m k v) :
    p ∈ m ∨ p = (k, v) := by
  unfold insertAssoc at h
  by_cases hany : m.any (fun q => q.1 == k) = true
  · rw [if_pos hany] at h
    obtain ⟨q, hq, hfq⟩ := List.mem_map.mp h
    by_cases hqk : q.1 == k
    · rw [if_pos hqk] at hfq
      exact Or.inr hfq.symm
    · rw [if_neg hqk] at hfq
      exact Or.inl (hfq ▸ hq)
  · rw [if_neg hany] at h
    rcases List.mem_append.mp h with h' | h'
    · exact Or.inl h'
    · exact Or.inr (List.mem_singleton.mp h')

theorem insertAssoc_key_self (m : List (VKey × String)) (k : VKey) (v : String) :
    ∃ w, (k, w) ∈ insertAssoc m k v := by
  unfold insertAssoc
  by_cases hany : m.any (fun q => q.1 == k) = true
  · rw [if_pos hany]
    obtain ⟨q, hq, hqk⟩ := List.any_eq_true.mp hany
    exact ⟨v, List.mem_map.mpr ⟨q, hq, if_pos hqk⟩⟩
  · rw [if_neg hany]
    exact ⟨v, List.mem_append.mpr (Or.inr (List.mem_singleton.mpr rfl))⟩

theorem insertAssoc_key_other {m : List (VKey × String)} {k' : VKey}
    {w : String} (k : VKey) (v : String) (h : (k', w) ∈ m) :
    ∃ w', (k', w') ∈ insertAssoc m k v := by
  unfold insertAssoc
  by_cases hany : m.any (fun q => q.1 == k) = true
  · rw [if_pos hany]
    by_cases hk : k' = k
    · subst hk
      refine ⟨v, List.mem_map.mpr ⟨(k', w), h, ?_⟩⟩
      simp
    · refine ⟨w, List.mem_map.mpr ⟨(k', w), h, ?_⟩⟩
      simp [hk]
  · rw [if_neg hany]
    exact ⟨w, List.mem_append.mpr (Or.inl h)⟩

theorem insertAssoc_keys_distinct {m : List (VKey × String)} {k : VKey}
    {v : String} (h : List.Pairwise (fun a b => a.1 ≠ b.1) m) :
    List.Pairwise (fun a b => a.1 ≠ b.1) (insertAssoc m k v) := by
  unfold insertAssoc
  by_cases hany : m.any (fun q => q.1 == k) = true
  · rw [if_pos hany]
    refine List.Pairwise.map _ ?_ h
    intro a b hab
    by_cases hak : (a.1 == k) = true
    · by_cases hbk : (b.1 == k) = true
      · exfalso
        have ha : a.1 = k := by simpa using hak
        have hb : b.1 = k := by simpa using hbk
        exact hab (ha.trans hb.symm)
      · rw [if_pos hak, if_neg hbk]
        have hb : ¬ b.1 = k := by simpa using hbk
        exact fun he => hb he.symm
    · by_cases hbk : (b.1 == k) = true
      · rw [if_neg hak, if_pos hbk]
        have ha : ¬ a.1 = k := by simpa using hak
        exact fun he => ha he
      · rw [if_neg hak, if_neg hbk]
        exact hab
  · rw [if_neg hany]
    rw [List.pairwise_append]
    refine ⟨h, List.pairwise_singleton _ _, ?_⟩
    intro a ha b hb
    rw [List.mem_singleton] at hb
    subst hb
    intro hak
    rw [List.any_eq_true] at hany
    exact hany ⟨a, ha, by simp [hak]⟩

theorem lexLtB_irrefl (a : List VElem) : lexLtB a a = false := by
  cases h : lexLtB a a
  · rfl
  · have := lexLtB_asymm a a h
    rw [h] at this
    exact this

theorem normCands_fold_mem (rp : Bool) :
    ∀ (cands : List String) (m : List (VKey × String)) (p : VKey × String),
    p ∈ cands.foldl (normStep rp) m →
    p ∈ m ∨ (p.2 ∈ cands ∧ _normalize_version p.2 rp = some p.1) := by
  intro cands
  induction cands with
  | nil =>
    intro m p h
    exact Or.inl h
  | cons c cs ih =>
    intro m p h
    rw [List.foldl_cons] at h
    rcases ih (normStep rp m c) p h with h' | h'
    · unfold normStep at h'
      cases hn : _normalize_version c rp with
      | none =>
        rw [hn] at h'
        exact Or.inl h'
      | some k =>
        rw [hn] at h'
        rcases insertAssoc_mem h' with h'' | h''
        · exact Or.inl h''
        · subst h''
          exact Or.inr ⟨List.mem_cons_self _ _, hn⟩
    · exact Or.inr ⟨List.mem_cons_of_mem _ h'.1, h'.2⟩

theorem normCands_mem {cands : List String} {rp : Bool} {p : VKey × String}
    (h : p ∈ normCands cands rp) :
    p.2 ∈ cands ∧ _normalize_version p.2 rp = some p.1 := by
  rcases normCands_fold_mem rp cands [] p h with h' | h'
  · simp at h'
  · exact h'

theorem normCands_fold_keep (rp : Bool) (k : VKey) :
    ∀ (cands : List String) (m : List (VKey × String)),
    (∃ w, (k, w) ∈ m) → ∃ w, (k, w) ∈ cands.foldl (normStep rp) m := by
  intro cands
  induction cands with
  | nil =>
    intro m h
    exact h
  | cons c cs ih =>
    intro m h
    obtain ⟨w, hw⟩ := h
    rw [List.foldl_cons]
    apply ih
    unfold normStep
    cases hn : _normalize_version c rp with
    | none => exact ⟨w, hw⟩
    | some k2 => exact insertAssoc_key_other k2 c hw

theorem normCands_key (rp : Bool) (k : VKey) :
    ∀ (cands : List String) (m : List (VKey × String)) (c : String),
    c ∈ cands → _normalize_version c rp = some k →
    ∃ w, (k, w) ∈ cands.foldl (normStep rp) m := by
  intro cands
  induction cands with
  | nil =>
    intro m c hc
    simp at hc
  | cons c0 cs ih =>
    intro m c hc hn
    rw [List.foldl_cons]
    rcases List.mem_cons.mp hc with rfl | hc'
    · apply normCands_fold_keep
      unfold normStep
      rw [hn]
      exact insertAssoc_key_self m k c
    · exact ih (normStep rp m c0) c hc' hn

theorem normCands_distinct (cands : List String) (rp : Bool) :
    List.Pairwise (fun a b => a.1 ≠ b.1) (normCands cands rp) := by
  have hgen : ∀ (cs : List String) (m : List (VKey × String)),
      List.Pairwise (fun a b => a.1 ≠ b.1) m →
      List.Pairwise (fun a b => a.1 ≠ b.1) (cs.foldl (normStep rp) m) := by
    intro cs
    induction cs with
    | nil =>
      intro m h
      exact h
    | cons c cs' ih =>
      intro m h
      rw [List.foldl_cons]
      apply ih
      unfold normStep
      cases _normalize_version c rp with
      | none => exact h
      | some k => exact insertAssoc_keys_distinct h
  exact hgen cands [] List.Pairwise.nil

theorem insSorted_perm (le : α → α → Bool) (x : α) (l : List α) :
    (insSorted le x l).Perm (x :: l) := by
  induction l with
  | nil => exact List.Perm.refl _
  | cons y ys ih =>
    unfold insSorted
    by_cases h : le x y = true
    · rw [if_pos h]
    · rw [if_neg h]
      exact (ih.cons y).trans (List.Perm.swap x y ys)

theorem insertionSort_perm (le : α → α → Bool) (l : List α) :
    (insertionSort le l).Perm l := by
  induction l with
  | nil => exact List.Perm.refl _
  | cons x xs ih =>
    unfold insertionSort
    exact (insSorted_perm le x (insertionSort le xs)).trans (ih.cons x)

theorem mem_insertionSort {le : α → α → Bool} {l : List α} {x : α} :
    x ∈ insertionSort le l ↔ x ∈ l :=
  (insertionSort_perm le l).mem_iff

theorem insSorted_pairwise {le : α → α → Bool}
    (htrans : ∀ a b c, le a b = true → le b c = true → le a c = true)
    (htot : ∀ a b, le a b = true ∨ le b a = true) (x : α) {l : List α}
    (hs : List.Pairwise (fun a b => le a b = true) l) :
    List.Pairwise (fun a b => le a b = true) (insSorted le x l) := by
  induction l with
  | nil => simp [insSorted]
  | cons y ys ih =>
    unfold insSorted
    obtain ⟨hy, hys⟩ := List.pairwise_cons.mp hs
    by_cases h : le x y = true
    · rw [if_pos h]
      rw [List.pairwise_cons]
      refine ⟨?_, hs⟩
      intro z hz
      rcases List.mem_cons.mp hz with rfl | hz'
      · exact h
      · exact htrans x y z h (hy z hz')
    · rw [if_neg h]
      rw [List.pairwise_cons]
      refine ⟨?_, ih hys⟩
      intro z hz
      rcases List.mem_cons.mp ((insSorted_perm le x ys).mem_iff.mp hz) with rfl | h1
      · rcases htot z y with h2 | h2
        · exact absurd h2 h
        · exact h2
      · exact hy z h1

theorem insertionSort_pairwise (le : α → α → Bool)
    (htrans : ∀ a b c, le a b = true → le b c = true → le a c = true)
    (htot : ∀ a b, le a b = true ∨ le b a = true) (l : List α) :
    List.Pairwise (fun a b => le a b = true) (insertionSort le l) := by
  induction l with
  | nil => simp [insertionSort]
  | cons x xs ih =>
    unfold insertionSort
    exact insSorted_pairwise htrans htot x ih

theorem vkeyDescLe_total (x y : VKey × String) :
    vkeyDescLe x y = true ∨ vkeyDescLe y x = true := by
  unfold vkeyDescLe vkLt
  rcases lexLtB_tri x.1.elems y.1.elems with he | h | h
  · left
    rw [he, lexLtB_irrefl]
    rfl
  · right
    rw [lexLtB_asymm _ _ h]
    rfl
  · left
    rw [lexLtB_asymm _ _ h]
    rfl

theorem vkeyDescLe_trans (x y z : VKey × String) (h1 : vkeyDescLe x y = true)
    (h2 : vkeyDescLe y z = true) : vkeyDescLe x z = true := by
  unfold vkeyDescLe vkLt at h1 h2 ⊢
  rw [Bool.not_eq_true'] at h1 h2 ⊢
  by_contra hc
  rw [Bool.not_eq_false] at hc
  rcases lexLtB_tri y.1.elems z.1.elems with he | h | h
  · rw [← he] at hc
    simp [hc] at h1
  · simp [h] at h2
  · have := lexLtB_trans _ _ _ hc h
    simp [this] at h1

theorem sortDescEntries_strict (m : List (VKey × String))
    (hdist : List.Pairwise (fun a b => a.1 ≠ b.1) m) :
    List.Pairwise (fun x y => lexLtB y.1.elems x.1.elems = true)
      (sortDescEntries m) := by
  have hs := insertionSort_pairwise vkeyDescLe vkeyDescLe_trans
    vkeyDescLe_total m
  have hd : List.Pairwise (fun a b => a.1 ≠ b.1) (sortDescEntries m) := by
    refine ((insertionSort_perm vkeyDescLe m).pairwise_iff ?_).mpr hdist
    intro a b hab
    exact fun he => hab he.symm
  refine (hs.and hd).imp ?_
  intro a b hab
  obtain ⟨hle, hne⟩ := hab
  unfold vkeyDescLe vkLt at hle
  rw [Bool.not_eq_true'] at hle
  rcases lexLtB_tri a.1.elems b.1.elems with he | h | h
  · exact absurd (VKey.elems_inj he) hne
  · simp [h] at hle
  · exact h

theorem sortDesc_plusFree {cands : List String} {rp : Bool}
    (hpf : ∀ c ∈ cands, ∀ k, _normalize_version c rp = some k → k.plus = false) :
    ∀ p ∈ sortDescEntries (normCands cands rp), p.1.plus = false := by
  intro p hp
  have hm : p ∈ normCands cands rp :=
    (insertionSort_perm vkeyDescLe (normCands cands rp)).mem_iff.mp hp
  obtain ⟨hc, hn⟩ := normCands_mem hm
  exact hpf p.2 hc p.1 hn

/-- Full characterization of a successful `_match_version` run: under a
normalizable request, sentinel-free candidate keys, and at least one
compatible candidate, the matcher returns the original string of a
candidate whose key is compatible and greatest among all compatible
candidate keys. -/
theorem match_version_spec (vendor requested : String) (cands : List String)
    (r : VKey)
    (hr : _normalize_version requested (_remove_prefix_1 vendor) = some r)
    (hpf : ∀ c ∈ cands, ∀ k,
      _normalize_version c (_remove_prefix_1 vendor) = some k → k.plus = false)
    (hex : ∃ c ∈ cands, ∃ k,
      _normalize_version c (_remove_prefix_1 vendor) = some k ∧
      _is_version_compatible_with_spec k r = true) :
    ∃ s ks, _match_version vendor cands requested = .ok s ∧ s ∈ cands ∧
      _normalize_version s (_remove_prefix_1 vendor) = some ks ∧
      _is_version_compatible_with_spec ks r = true ∧
      ∀ c ∈ cands, ∀ k,
        _normalize_version c (_remove_prefix_1 vendor) = some k →
        _is_version_compatible_with_spec k r = true →
        (k = ks ∨ lexLtB k.elems ks.elems = true) := by
  have hdesc := sortDescEntries_strict (normCands cands (_remove_prefix_1 vendor))
    (normCands_distinct cands (_remove_prefix_1 vendor))
  have hpf' := sortDesc_plusFree hpf
  have hscan := scanCandidates_eq_find
    (sortDescEntries (normCands cands (_remove_prefix_1 vendor))) r hpf' hdesc
  obtain ⟨c, hc, k, hk, hcompat⟩ := hex
  obtain ⟨w, hw⟩ := normCands_key (_remove_prefix_1 vendor) k cands [] c hc hk
  have hwsort : (k, w) ∈ sortDescEntries (normCands cands (_remove_prefix_1 vendor)) :=
    (insertionSort_perm vkeyDescLe _).mem_iff.mpr hw
  have hsome : ((sortDescEntries (normCands cands (_remove_prefix_1 vendor))).find?
      (fun p => _is_version_compatible_with_spec p.1 r)).isSome = true := by
    rw [List.find?_isSome]
    exact ⟨(k, w), hwsort, hcompat⟩
  obtain ⟨p, hp⟩ := Option.isSome_iff_exists.mp hsome
  have hpmem : p ∈ sortDescEntries (normCands cands (_remove_prefix_1 vendor)) :=
    List.mem_of_find?_eq_some hp
  have hppred : _is_version_compatible_with_spec p.1 r = true :=
    @List.find?_some (VKey × String)
      (fun q => _is_version_compatible_with_spec q.1 r) p
      (sortDescEntries (normCands cands (_remove_prefix_1 vendor))) hp
  obtain ⟨hpc, hpn⟩ := normCands_mem
    ((insertionSort_perm vkeyDescLe _).mem_iff.mp hpmem)
  refine ⟨p.2, p.1, ?_, hpc, hpn, hppred, ?_⟩
  · simp only [_match_version, hr, hscan, hp, Option.map_some']
  · intro c2 hc2 k2 hn2 hcompat2
    obtain ⟨w2, hw2⟩ := normCands_key (_remove_prefix_1 vendor) k2 cands [] c2 hc2 hn2
    have hw2sort : (k2, w2) ∈
        sortDescEntries (normCands cands (_remove_prefix_1 vendor)) :=
      (insertionSort_perm vkeyDescLe _).mem_iff.mpr hw2
    rcases find_desc_max _ _ p hdesc hp (k2, w2) hw2sort hcompat2 with he | hlt
    · exact Or.inl (congrArg Prod.fst he)
    · exact Or.inr hlt

/-- `_match_version` raises `LookupError` when no candidate is compatible
(under a normalizable request and sentinel-free candidate keys). -/
theorem match_version_none (vendor requested : String) (cands : List String)
    (r : VKey)
    (hr : _normalize_version requested (_remove_prefix_1 vendor) = some r)
    (hpf : ∀ c ∈ cands, ∀ k,
      _normalize_version c (_remove_prefix_1 vendor) = some k → k.plus = false)
    (hnone : ∀ c ∈ cands, ∀ k,
      _normalize_version c (_remove_prefix_1 vendor) = some k →
      _is_version_compatible_with_spec k r = false) :
    _match_version vendor cands requested =
      .error (.lookupError ("No matching version for '" ++ vendor ++ ":"
        ++ requested ++ "'")) := by
  have hdesc := sortDescEntries_strict (normCands cands (_remove_prefix_1 vendor))
    (normCands_distinct cands (_remove_prefix_1 vendor))
  have hpf' := sortDesc_plusFree hpf
  have hscan := scanCandidates_eq_find
    (sortDescEntries (normCands cands (_remove_prefix_1 vendor))) r hpf' hdesc
  have hfind : (sortDescEntries (normCands cands (_remove_prefix_1 vendor))).find?
      (fun p => _is_version_compatible_with_spec p.1 r) = none := by
    rw [List.find?_eq_none]
    intro p hp
    obtain ⟨hpc, hpn⟩ := normCands_mem
      ((insertionSort_perm vkeyDescLe _).mem_iff.mp hp)
    simp [hnone p.2 hpc p.1 hpn]
  simp only [_match_version, hr, hscan, hfind, Option.map_none']

/-- C1: for every vendor, candidate list, and requested specifier (with the
requested version normalizing, candidate keys sentinel-free, and at least
one compatible candidate), `_match_version` returns the ORIGINAL string of
a successfully-normalizing candidate whose normalized key is compatible
with the normalized request and greatest (element-by-element over integer
tuples) among all compatible candidates' keys — i.e. the descending scan
with early stop computes exactly the maximum compatible candidate of a
full scan. -/
theorem c1_match_version_returns_greatest (vendor requested : String)
    (cands : List String) (r : VKey)
    (hr : _normalize_version requested (_remove_prefix_1 vendor) = some r)
    (hpf : ∀ c ∈ cands, ∀ k,
      _normalize_version c (_remove_prefix_1 vendor) = some k → k.plus = false)
    (hex : ∃ c ∈ cands, ∃ k,
      _normalize_version c (_remove_prefix_1 vendor) = some k ∧
      _is_version_compatible_with_spec k r = true) :
    ∃ s ks, _match_version vendor cands requested = .ok s ∧ s ∈ cands ∧
      _normalize_version s (_remove_prefix_1 vendor) = some ks ∧
      _is_version_compatible_with_spec ks r = true ∧
      ∀ c ∈ cands, ∀ k,
        _normalize_version c (_remove_prefix_1 vendor) = some k →
        _is_version_compatible_with_spec k r = true →
        (k = ks ∨ lexLtB k.elems ks.elems = true) :=
  match_version_spec vendor requested cands r hr hpf hex

theorem c1_witness :
    _match_version "temurin" ["11.0.1", "11.0.9", "11.0.10"] "11"
        = .ok "11.0.10" ∧
      ∃ s ks, _match_version "temurin" ["11.0.1", "11.0.9", "11.0.10"] "11"
          = .ok s ∧ s ∈ ["11.0.1", "11.0.9", "11.0.10"] ∧
        _normalize_version s (_remove_prefix_1 "temurin") = some ks ∧
        _is_version_compatible_with_spec ks ⟨[11], false⟩ = true ∧
        ∀ c ∈ ["11.0.1", "11.0.9", "11.0.10"], ∀ k,
          _normalize_version c (_remove_prefix_1 "temurin") = some k →
          _is_version_compatible_with_spec k ⟨[11], false⟩ = true →
          (k = ks ∨ lexLtB k.elems ks.elems = true) := by
  constructor
  · rfl
  · refine c1_match_version_returns_greatest "temurin" "11"
      ["11.0.1", "11.0.9", "11.0.10"] ⟨[11], false⟩ (by decide) ?_ ?_
    · intro c hc k hk
      rcases List.mem_cons.mp hc with rfl | hc'
      · have h2 : some (⟨[11, 0, 1], false⟩ : VKey) = some k := hk
        cases h2
        rfl
      rcases List.mem_cons.mp hc' with rfl | hc''
      · have h2 : some (⟨[11, 0, 9], false⟩ : VKey) = some k := hk
        cases h2
        rfl
      rcases List.mem_cons.mp hc'' with rfl | hc'''
      · have h2 : some (⟨[11, 0, 10], false⟩ : VKey) = some k := hk
        cases h2
        rfl
      · simp at hc'''
    · exact ⟨"11.0.10", by decide, ⟨[11, 0, 10], false⟩, by decide, by decide⟩

/-- C10: the claim that every candidate accepted by normalization carries a
sentinel-free key (so the assertion heading the compatibility test holds)
is wrong on the code: `_normalize_version` accepts the candidate "11+",
producing the key (11, "+"), which reaches
`_is_version_compatible_with_spec` and violates `assert "+" not in
version` (an `AssertionError` escapes `_match_version`). -/
theorem c10_assertion_violated :
    _normalize_version "11+" (_remove_prefix_1 "temurin")
        = some ⟨[11], true⟩ ∧
      (⟨[11], true⟩ : VKey).plus = true ∧
      _match_version "temurin" ["11+"] "11" = .error .assertionError := by
  refine ⟨by decide, rfl, by rfl⟩

/-- C9: a requested specifier with the empty normalized key is compatible
with every candidate, so matching returns the overall newest candidate;
this arises for the empty request, and (for vendors without "graalvm" in
the name) for the requests "1" (prefix-1 removal deletes its only
component) and "1+" (which normalizes to the bare open-ended sentinel,
also compatible with everything). -/
theorem c9_empty_key_matches_everything (vendor : String) (k : VKey) :
    (_normalize_version "" true = some ⟨[], false⟩ ∧
      _normalize_version "" false = some ⟨[], false⟩) ∧
    (is_graal vendor = false →
      _normalize_version "1" (_remove_prefix_1 vendor) = some ⟨[], false⟩ ∧
      _normalize_version "1+" (_remove_prefix_1 vendor) = some ⟨[], true⟩) ∧
    (_is_version_compatible_with_spec k ⟨[], false⟩ = true ∧
      _is_version_compatible_with_spec k ⟨[], true⟩ = true) ∧
    returnsNewest vendor "" ∧
    (is_graal vendor = false →
      returnsNewest vendor "1" ∧ returnsNewest vendor "1+") := by
  have hflag : ∀ h : is_graal vendor = false, _remove_prefix_1 vendor = true := by
    intro h
    unfold _remove_prefix_1
    rw [h]
    rfl
  have hcompat0 : ∀ k2 : VKey,
      _is_version_compatible_with_spec k2 ⟨[], false⟩ = true := by
    intro k2
    simp [_is_version_compatible_with_spec]
  have hnewest : ∀ (req : String) (r : VKey),
      _normalize_version req (_remove_prefix_1 vendor) = some r →
      (∀ k2 : VKey, _is_version_compatible_with_spec k2 r = true) →
      returnsNewest vendor req := by
    intro req r hr hall cands hpf hexist
    obtain ⟨c, hc, kc, hkc⟩ := hexist
    obtain ⟨s, ks, hok, hmem, hnrm, _, hmax⟩ :=
      match_version_spec vendor req cands r hr hpf
        ⟨c, hc, kc, hkc, hall kc⟩
    exact ⟨s, ks, hok, hmem, hnrm,
      fun c2 hc2 k2 hn2 => hmax c2 hc2 k2 hn2 (hall k2)⟩
  refine ⟨⟨rfl, rfl⟩, ?_, ⟨hcompat0 k, compat_bare _ _⟩, ?_, ?_⟩
  · intro h
    rw [hflag h]
    exact ⟨rfl, rfl⟩
  · exact hnewest "" ⟨[], false⟩ rfl hcompat0
  · intro h
    constructor
    · refine hnewest "1" ⟨[], false⟩ ?_ hcompat0
      rw [hflag h]
      rfl
    · refine hnewest "1+" ⟨[], true⟩ ?_ (fun k2 => compat_bare _ _)
      rw [hflag h]
      rfl

theorem c9_witness :
    (_normalize_version "1" (_remove_prefix_1 "temurin") = some ⟨[], false⟩) ∧
      ∃ s ks, _match_version "temurin" ["9.0.1", "17.0.2", "8"] "1" = .ok s ∧
        s ∈ ["9.0.1", "17.0.2", "8"] ∧
        _normalize_version s (_remove_prefix_1 "temurin") = some ks ∧
        ∀ c ∈ ["9.0.1", "17.0.2", "8"], ∀ k,
          _normalize_version c (_remove_prefix_1 "temurin") = some k →
          (k = ks ∨ lexLtB k.elems ks.elems = true) := by
  have hmain := c9_empty_key_matches_everything "temurin" ⟨[], false⟩
  constructor
  · exact (hmain.2.1 (by decide)).1
  · refine (hmain.2.2.2.2 (by decide)).1 ["9.0.1", "17.0.2", "8"] ?_ ?_
    · intro c hc k hk
      rcases List.mem_cons.mp hc with rfl | hc'
      · have h2 : some (⟨[9, 0, 1], false⟩ : VKey) = some k := hk
        cases h2
        rfl
      rcases List.mem_cons.mp hc' with rfl | hc''
      · have h2 : some (⟨[17, 0, 2], false⟩ : VKey) = some k := hk
        cases h2
        rfl
      rcases List.mem_cons.mp hc'' with rfl | hc'''
      · have h2 : some (⟨[8], false⟩ : VKey) = some k := hk
        cases h2
        rfl
      · simp at hc'''
    · exact ⟨"8", by decide, ⟨[8], false⟩, by decide⟩

/-- C2: the compatibility test, characterized exactly: without the
open-ended marker it is a pure prefix match requiring the candidate to have
at least as many components; a bare marker matches every candidate; a
non-bare open-ended spec pins all but its last component and uses the last
as an inclusive lower bound at that position. -/
theorem c2_compat_characterization (v s : List Int) (pv : Bool) :
    (_is_version_compatible_with_spec ⟨v, pv⟩ ⟨s, false⟩ = true ↔
      s.length ≤ v.length ∧ v.take s.length = s) ∧
    (_is_version_compatible_with_spec ⟨v, pv⟩ ⟨[], true⟩ = true) ∧
    (s ≠ [] →
      (_is_version_compatible_with_spec ⟨v, pv⟩ ⟨s, true⟩ = true ↔
        s.length ≤ v.length ∧ v.take (s.length - 1) = s.dropLast ∧
        ∃ m vm, s.getLast? = some m ∧ v[s.length - 1]? = some vm ∧ m ≤ vm)) := by
  refine ⟨by simp [_is_version_compatible_with_spec], compat_bare v pv, ?_⟩
  intro hs
  cases s with
  | nil => exact absurd rfl hs
  | cons a ss =>
    simp [_is_version_compatible_with_spec]
    constructor
    · rintro ⟨⟨hl, ht⟩, hlast⟩
      refine ⟨hl, ht, ?_⟩
      have hlt : ss.length < v.length := by omega
      obtain ⟨vm, hvm⟩ : ∃ x, v[ss.length]? = some x :=
        ⟨_, List.getElem?_eq_getElem hlt⟩
      have hlastsome : (a :: ss).getLast?.isSome = true := by
        rw [List.getLast?_isSome]
        exact List.cons_ne_nil a ss
      obtain ⟨m, hm⟩ := Option.isSome_iff_exists.mp hlastsome
      refine ⟨m, hm, vm, hvm, ?_⟩
      rw [hm, hvm] at hlast
      simpa using hlast
    · rintro ⟨hl, ht, m, hm, vm, hvm, hle⟩
      refine ⟨⟨hl, ht⟩, ?_⟩
      rw [hm, hvm]
      simpa using hle

theorem c2_witness :
    _is_version_compatible_with_spec ⟨[11, 0, 1], false⟩ ⟨[11], false⟩ = true ∧
      _is_version_compatible_with_spec ⟨[11], false⟩ ⟨[11, 0], false⟩ = false := by
  constructor
  · exact (c2_compat_characterization [11, 0, 1] [11] false).1.mpr (by decide)
  · have h := (c2_compat_characterization [11] [11, 0] false).1
    rw [Bool.eq_false_iff]
    intro hc
    have := h.mp hc
    simp at this

/-- Dropping a leading component equal to exactly 1 relates normalization
with and without `remove_prefix_1`. -/
theorem normalize_drop1 (ver : String) (ints : List Int) (p : Bool)
    (h : _normalize_version ver false = some ⟨ints, p⟩) :
    _normalize_version ver true = some ⟨drop1 ints, p⟩ := by
  unfold _normalize_version at h ⊢
  by_cases hbe : (stripPlusL ver.data).isEmpty = true
  · rw [if_pos hbe] at h ⊢
    injection h with h2
    injection h2 with h3 h4
    subst h3
    subst h4
    rfl
  · rw [if_neg hbe] at h ⊢
    cases hp : parseComps (splitVer (stripPlusL ver.data) []) with
    | none =>
      rw [hp] at h
      cases h
    | some norm =>
      rw [hp] at h
      simp only [Bool.false_and, if_neg, Bool.false_eq_true,
        reduceIte] at h
      injection h with h2
      injection h2 with h3 h4
      subst h3
      subst h4
      cases norm with
      | nil => rfl
      | cons h0 t =>
        simp only [Bool.true_and, List.isEmpty_cons, Bool.not_false,
          List.headD_cons]
        by_cases h01 : h0 = 1
        · subst h01
          rw [if_pos (by rfl)]
          rfl
        · rw [if_neg (by simpa using h01)]
          simp only [drop1, List.headD_cons]
          rw [if_neg (by simpa using h01)]

/-- C3: for vendors without "graalvm" in the name (case-insensitive),
normalization drops a leading component equal to exactly 1 (so "1.8.0" and
"8.0" get the same key and match the same requests); for vendors with
"graalvm" in the name the leading 1 is kept, and "1.8.0" and "8.0"
normalize to different keys. -/
theorem c3_prefix1_removal (vendor ver : String) (ints : List Int) (p : Bool) :
    (_normalize_version ver false = some ⟨ints, p⟩ →
      _normalize_version ver true = some ⟨drop1 ints, p⟩) ∧
    (is_graal vendor = false →
      _remove_prefix_1 vendor = true ∧
      _normalize_version "1.8.0" (_remove_prefix_1 vendor)
        = _normalize_version "8.0" (_remove_prefix_1 vendor)) ∧
    (is_graal vendor = true →
      _remove_prefix_1 vendor = false ∧
      _normalize_version "1.8.0" (_remove_prefix_1 vendor)
        ≠ _normalize_version "8.0" (_remove_prefix_1 vendor)) := by
  refine ⟨normalize_drop1 ver ints p, ?_, ?_⟩
  · intro h
    have hflag : _remove_prefix_1 vendor = true := by
      unfold _remove_prefix_1
      rw [h]
      rfl
    rw [hflag]
    exact ⟨rfl, by decide⟩
  · intro h
    have hflag : _remove_prefix_1 vendor = false := by
      unfold _remove_prefix_1
      rw [h]
      rfl
    rw [hflag]
    exact ⟨rfl, by decide⟩

theorem c3_witness :
    _normalize_version "1.8.0" true = some ⟨drop1 [1, 8, 0], false⟩ ∧
      (_remove_prefix_1 "temurin" = true ∧
        _normalize_version "1.8.0" (_remove_prefix_1 "temurin")
          = _normalize_version "8.0" (_remove_prefix_1 "temurin")) ∧
      (_remove_prefix_1 "graalvm-ce" = false ∧
        _normalize_version "1.8.0" (_remove_prefix_1 "graalvm-ce")
          ≠ _normalize_version "8.0" (_remove_prefix_1 "graalvm-ce")) :=
  ⟨(c3_prefix1_removal "temurin" "1.8.0" [1, 8, 0] false).1 (by decide),
   (c3_prefix1_removal "temurin" "1.8.0" [1, 8, 0] false).2.1 (by decide),
   (c3_prefix1_removal "graalvm-ce" "1.8.0" [1, 8, 0] false).2.2 (by decide)⟩

/-- C4: `find_home` returns `path` when `path/bin` is a directory holding a
file `java` or `java.exe`; else `path/Contents/Home` when that directory
satisfies the same predicate; else, with positive recursion budget
(initially 2) and exactly one subdirectory, it descends with the budget
decremented; in every other case it fails naming `path`.  Concretely:
`root/only-child/bin/java` is found as `root/only-child` within budget 2;
`root/Contents/Home/bin/java` is found via the bundle check without
consuming any budget (budget 0 suffices); a home three single-child levels
deep fails. -/
theorem c4_find_home (t : FSNode) (p : List String) (d : Nat) :
    (isDirAt t (p ++ ["bin"]) = true ∧
        (isFileAt t (p ++ ["bin", "java"]) = true ∨
          isFileAt t (p ++ ["bin", "java.exe"]) = true) →
      find_home t p d = .ok p) ∧
    (_looks_like_java_home t p = false →
      _looks_like_java_home t (p ++ ["Contents", "Home"]) = true →
      find_home t p d = .ok (p ++ ["Contents", "Home"])) ∧
    (_looks_like_java_home t p = false →
      _looks_like_java_home t (p ++ ["Contents", "Home"]) = false →
      ∀ name, 0 < d → _contains_single_subdir t p = some name →
      find_home t p d = find_home t (p ++ [name]) (d - 1)) ∧
    (_looks_like_java_home t p = false →
      _looks_like_java_home t (p ++ ["Contents", "Home"]) = false →
      (d = 0 ∨ _contains_single_subdir t p = none) →
      find_home t p d = .error p) ∧
    (find_home jdkTreeWrapped [] 2 = .ok ["only-child"] ∧
      find_home jdkTreeMac [] 0 = .ok ["Contents", "Home"] ∧
      find_home jdkTreeDeep [] 2 = .error ["a", "b"]) := by
  refine ⟨?_, ?_, ?_, ?_, rfl, rfl, rfl⟩
  · intro h
    have hok : _looks_like_java_home t p = true := by
      unfold _looks_like_java_home
      rcases h.2 with h2 | h2 <;> simp [h.1, h2]
    unfold find_home
    rw [if_pos hok]
  · intro h1 h2
    unfold find_home
    rw [if_neg (by simp [h1]), if_pos h2]
  · intro h1 h2 name hd hsub
    cases d with
    | zero => exact absurd hd (by omega)
    | succ d2 =>
      conv_lhs => unfold find_home
      rw [if_neg (by simp [h1]), if_neg (by simp [h2])]
      simp only [hsub]
      rfl
  · intro h1 h2 hd
    unfold find_home
    rw [if_neg (by simp [h1]), if_neg (by simp [h2])]
    rcases hd with rfl | hsub
    · rfl
    · cases d with
      | zero => rfl
      | succ d2 => rw [hsub]

theorem c4_witness : find_home jdkTreeHome [] 2 = .ok [] :=
  (c4_find_home jdkTreeHome [] 2).1 ⟨by rfl, Or.inl (by rfl)⟩

theorem strPairLe_total (x y : String × String) :
    strPairLe x y = true ∨ strPairLe y x = true := by
  unfold strPairLe
  rcases lt_trichotomy x.1 y.1 with h | h | h
  · left
    simp [h]
  · rcases le_total x.2 y.2 with h2 | h2
    · left
      simp [h, h2]
    · right
      simp [h.symm, h2]
  · right
    simp [h]

theorem strPairLe_trans (x y z : String × String) (h1 : strPairLe x y = true)
    (h2 : strPairLe y z = true) : strPairLe x z = true := by
  unfold strPairLe at h1 h2 ⊢
  rw [decide_eq_true_eq] at h1 h2 ⊢
  rcases h1 with h1 | ⟨h1a, h1b⟩
  · rcases h2 with h2 | ⟨h2a, h2b⟩
    · exact Or.inl (lt_trans h1 h2)
    · exact Or.inl (h2a ▸ h1)
  · rcases h2 with h2 | ⟨h2a, h2b⟩
    · exact Or.inl (h1a ▸ h2)
    · exact Or.inr ⟨h1a.trans h2a, le_trans h1b h2b⟩

/-- C6: `available_jdks` returns the empty list (not an error) when
`catalog[os]` or `catalog[os][arch]` is absent; otherwise it returns all
(vendor, version) pairs under `catalog[os][arch]` with the "jdk@" prefix
stripped from vendors, sorted ascending by (vendor, version) compared as
strings. -/
theorem c6_available_jdks (index : Index) (conf : Configuration) :
    ((lookupStr index conf.os = none ∨
      ∃ archs, lookupStr index conf.os = some archs ∧
        lookupStr archs conf.arch = none) →
      available_jdks index conf = []) ∧
    (∀ archs jdks, lookupStr index conf.os = some archs →
      lookupStr archs conf.arch = some jdks →
      (available_jdks index conf).Perm
        (jdks.flatMap (fun vv => vv.2.map (fun ver => (stripJdkAt vv.1, ver.1)))) ∧
      List.Pairwise (fun x y => strPairLe x y = true)
        (available_jdks index conf)) := by
  constructor
  · intro h
    unfold available_jdks
    rcases h with h | ⟨archs, h1, h2⟩
    · simp [h]
    · simp [h1, h2]
  · intro archs jdks h1 h2
    unfold available_jdks
    simp only [h1, h2]
    exact ⟨insertionSort_perm _ _,
      insertionSort_pairwise strPairLe strPairLe_trans strPairLe_total _⟩

theorem c6_witness :
    (available_jdks emptyVersionIndex emptyVersionConf).Perm [("foo", "")] ∧
      List.Pairwise (fun x y => strPairLe x y = true)
        (available_jdks emptyVersionIndex emptyVersionConf) := by
  have h := (c6_available_jdks emptyVersionIndex emptyVersionConf).2
    [("amd64", [("jdk@foo", [("", "tgz+https://example.com/x")])])]
    [("jdk@foo", [("", "tgz+https://example.com/x")])] (by rfl) (by rfl)
  exact ⟨h.1, h.2⟩

/-- C5 counterexample: the claim "resolveVersion fails exactly when no
version is available for the vendor or none satisfies the specifier, and on
success no error is raised" is false on the code: with a catalog whose only
version string for the vendor is "" and the request "", the candidate ""
exists, normalizes, and satisfies the request, yet `resolve_jdk_version`
raises (the matched string is falsy, so `if not matched` misfires and
reports "No JDK matching version"). -/
theorem c5_counterexample :
    versionsFor emptyVersionIndex emptyVersionConf = [""] ∧
      _normalize_version "" (_remove_prefix_1 emptyVersionConf.vendor)
        = some ⟨[], false⟩ ∧
      _is_version_compatible_with_spec ⟨[], false⟩ ⟨[], false⟩ = true ∧
      _match_version emptyVersionConf.vendor [""] "" = .ok "" ∧
      resolve_jdk_version emptyVersionIndex emptyVersionConf
        = .error (.keyError "No JDK matching version  for linux-amd64-foo") := by
  refine ⟨by decide, by decide, by decide, by rfl, by rfl⟩

/-- C5 (amended): with a well-formed requested specifier and sentinel-free
candidate keys, `resolve_jdk_version` fails exactly when no version at all
exists for the vendor on the os/arch (a `KeyError` naming vendor, os and
arch), when versions exist but none satisfies the specifier (a
`LookupError` naming the requested version), or when the matched candidate
string is empty (misreported as the "no JDK matching version" `KeyError`);
every such error belongs to the common class `LookupError`, and otherwise
the matched version is returned with no error. -/
theorem c5_resolve_failure_modes (index : Index) (conf : Configuration)
    (r : VKey)
    (hr : _normalize_version conf.version (_remove_prefix_1 conf.vendor)
      = some r)
    (hpf : ∀ c ∈ versionsFor index conf, ∀ k,
      _normalize_version c (_remove_prefix_1 conf.vendor) = some k →
      k.plus = false) :
    (versionsFor index conf = [] →
      resolve_jdk_version index conf = .error (.keyError
        ("No " ++ conf.vendor ++ " JDK is available for "
          ++ conf.os ++ "-" ++ conf.arch))) ∧
    (versionsFor index conf ≠ [] →
      (∀ c ∈ versionsFor index conf, ∀ k,
        _normalize_version c (_remove_prefix_1 conf.vendor) = some k →
        _is_version_compatible_with_spec k r = false) →
      resolve_jdk_version index conf = .error (.lookupError
        ("No matching version for '" ++ conf.vendor ++ ":"
          ++ conf.version ++ "'"))) ∧
    ((∃ c ∈ versionsFor index conf, ∃ k,
        _normalize_version c (_remove_prefix_1 conf.vendor) = some k ∧
        _is_version_compatible_with_spec k r = true) →
      ∃ s, s ∈ versionsFor index conf ∧
        (s ≠ "" → resolve_jdk_version index conf = .ok s) ∧
        (s = "" → resolve_jdk_version index conf = .error (.keyError
          ("No JDK matching version " ++ conf.version ++ " for "
            ++ conf.os ++ "-" ++ conf.arch ++ "-" ++ conf.vendor)))) ∧
    (∀ e, resolve_jdk_version index conf = .error e → e.isLookup = true) := by
  have h1 : versionsFor index conf = [] →
      resolve_jdk_version index conf = .error (.keyError
        ("No " ++ conf.vendor ++ " JDK is available for "
          ++ conf.os ++ "-" ++ conf.arch)) := by
    intro h
    unfold resolve_jdk_version
    simp [h]
  have hie : versionsFor index conf ≠ [] →
      (versionsFor index conf).isEmpty = false := by
    intro hne
    rw [Bool.eq_false_iff]
    intro hc
    exact hne (List.isEmpty_iff.mp hc)
  have h2 : versionsFor index conf ≠ [] →
      (∀ c ∈ versionsFor index conf, ∀ k,
        _normalize_version c (_remove_prefix_1 conf.vendor) = some k →
        _is_version_compatible_with_spec k r = false) →
      resolve_jdk_version index conf = .error (.lookupError
        ("No matching version for '" ++ conf.vendor ++ ":"
          ++ conf.version ++ "'")) := by
    intro hne hnone
    have hm := match_version_none conf.vendor conf.version
      (versionsFor index conf) r hr hpf hnone
    unfold resolve_jdk_version
    simp [hie hne, hm]
  have h3 : (∃ c ∈ versionsFor index conf, ∃ k,
        _normalize_version c (_remove_prefix_1 conf.vendor) = some k ∧
        _is_version_compatible_with_spec k r = true) →
      ∃ s, s ∈ versionsFor index conf ∧
        (s ≠ "" → resolve_jdk_version index conf = .ok s) ∧
        (s = "" → resolve_jdk_version index conf = .error (.keyError
          ("No JDK matching version " ++ conf.version ++ " for "
            ++ conf.os ++ "-" ++ conf.arch ++ "-" ++ conf.vendor))) := by
    intro hex
    obtain ⟨s, ks, hok, hmem, _, _, _⟩ := match_version_spec conf.vendor
      conf.version (versionsFor index conf) r hr hpf hex
    have hne : versionsFor index conf ≠ [] := by
      intro hc
      rw [hc] at hmem
      exact List.not_mem_nil s hmem
    refine ⟨s, hmem, ?_, ?_⟩
    · intro hs
      unfold resolve_jdk_version
      simp [hie hne, hok, hs]
    · intro hs
      subst hs
      unfold resolve_jdk_version
      simp [hie hne, hok]
  refine ⟨h1, h2, h3, ?_⟩
  intro e herr
  by_cases hv : versionsFor index conf = []
  · have := (h1 hv).symm.trans herr
    injection this with he
    rw [← he]
    rfl
  · by_cases hex : ∃ c ∈ versionsFor index conf, ∃ k,
        _normalize_version c (_remove_prefix_1 conf.vendor) = some k ∧
        _is_version_compatible_with_spec k r = true
    · obtain ⟨s, hmem, hsok, hsempty⟩ := h3 hex
      by_cases hs : s = ""
      · have := (hsempty hs).symm.trans herr
        injection this with he
        rw [← he]
        rfl
      · have := (hsok hs).symm.trans herr
        cases this
    · have hnone : ∀ c ∈ versionsFor index conf, ∀ k,
          _normalize_version c (_remove_prefix_1 conf.vendor) = some k →
          _is_version_compatible_with_spec k r = false := by
        intro c hc k hk
        rw [Bool.eq_false_iff]
        intro hcompat
        exact hex ⟨c, hc, k, hk, hcompat⟩
      have := (h2 hv hnone).symm.trans herr
      injection this with he
      rw [← he]
      rfl

theorem c5_witness :
    ∃ s, s ∈ versionsFor emptyVersionIndex emptyVersionConf ∧
      (s ≠ "" → resolve_jdk_version emptyVersionIndex emptyVersionConf = .ok s) ∧
      (s = "" → resolve_jdk_version emptyVersionIndex emptyVersionConf
        = .error (.keyError
          ("No JDK matching version " ++ emptyVersionConf.version ++ " for "
            ++ emptyVersionConf.os ++ "-" ++ emptyVersionConf.arch ++ "-"
            ++ emptyVersionConf.vendor))) := by
  refine (c5_resolve_failure_modes emptyVersionIndex emptyVersionConf
    ⟨[], false⟩ (by decide) ?_).2.2.1 ?_
  · intro c hc k hk
    have hc' : c = "" := by
      have : c ∈ [""] := hc
      simpa using this
    subst hc'
    have h2 : some (⟨[], false⟩ : VKey) = some k := hk
    cases h2
    rfl
  · refine ⟨"", by decide, ⟨[], false⟩, by decide, by decide⟩

theorem sepEquivB_endsPlus : ∀ (v w : List Char), sepEquivB v w = true →
    endsPlus v = endsPlus w := by
  intro v
  induction v with
  | nil =>
    intro w h
    cases w with
    | nil => rfl
    | cons b bs => simp [sepEquivB] at h
  | cons a as ih =>
    intro w h
    cases w with
    | nil => simp [sepEquivB] at h
    | cons b bs =>
      simp only [sepEquivB, Bool.and_eq_true, Bool.or_eq_true, beq_iff_eq] at h
      obtain ⟨hab, hrest⟩ := h
      cases as with
      | nil =>
        cases bs with
        | nil =>
          unfold endsPlus
          simp only [List.getLast?_singleton]
          rcases hab with ⟨hsa, hsb⟩ | rfl
          · have ha : a ≠ '+' := by
              intro hc
              rw [hc] at hsa
              simp [isVerSep] at hsa
            have hb : b ≠ '+' := by
              intro hc
              rw [hc] at hsb
              simp [isVerSep] at hsb
            simp [ha, hb]
          · rfl
        | cons b2 bs2 => simp [sepEquivB] at hrest
      | cons a2 as2 =>
        cases bs with
        | nil => simp [sepEquivB] at hrest
        | cons b2 bs2 =>
          unfold endsPlus
          rw [List.getLast?_cons_cons, List.getLast?_cons_cons]
          exact ih (b2 :: bs2) hrest

theorem sepEquivB_dropLast : ∀ (v w : List Char), sepEquivB v w = true →
    sepEquivB v.dropLast w.dropLast = true := by
  intro v
  induction v with
  | nil =>
    intro w h
    cases w with
    | nil => rfl
    | cons b bs => simp [sepEquivB] at h
  | cons a as ih =>
    intro w h
    cases w with
    | nil => simp [sepEquivB] at h
    | cons b bs =>
      simp only [sepEquivB, Bool.and_eq_true] at h
      obtain ⟨hab, hrest⟩ := h
      cases as with
      | nil =>
        cases bs with
        | nil => rfl
        | cons b2 bs2 => simp [sepEquivB] at hrest
      | cons a2 as2 =>
        cases bs with
        | nil => simp [sepEquivB] at hrest
        | cons b2 bs2 =>
          rw [List.dropLast_cons_of_ne_nil (List.cons_ne_nil a2 as2),
            List.dropLast_cons_of_ne_nil (List.cons_ne_nil b2 bs2)]
          simp only [sepEquivB, Bool.and_eq_true]
          exact ⟨hab, ih (b2 :: bs2) hrest⟩

theorem sepEquivB_split : ∀ (v w acc : List Char), sepEquivB v w = true →
    splitVer v acc = splitVer w acc := by
  intro v
  induction v with
  | nil =>
    intro w acc h
    cases w with
    | nil => rfl
    | cons b bs => simp [sepEquivB] at h
  | cons a as ih =>
    intro w acc h
    cases w with
    | nil => simp [sepEquivB] at h
    | cons b bs =>
      simp only [sepEquivB, Bool.and_eq_true, Bool.or_eq_true, beq_iff_eq] at h
      obtain ⟨hab, hrest⟩ := h
      rcases hab with ⟨hsa, hsb⟩ | rfl
      · unfold splitVer
        rw [if_pos hsa, if_pos hsb, ih bs [] hrest]
      · unfold splitVer
        by_cases hsa : isVerSep a = true
        · rw [if_pos hsa, if_pos hsa, ih bs [] hrest]
        · rw [if_neg hsa, if_neg hsa, ih bs (a :: acc) hrest]

theorem sepEquivB_length : ∀ (v w : List Char), sepEquivB v w = true →
    v.length = w.length := by
  intro v
  induction v with
  | nil =>
    intro w h
    cases w with
    | nil => rfl
    | cons b bs => simp [sepEquivB] at h
  | cons a as ih =>
    intro w h
    cases w with
    | nil => simp [sepEquivB] at h
    | cons b bs =>
      simp only [sepEquivB, Bool.and_eq_true] at h
      simp [ih bs h.2]

theorem parseComps_mem_none : ∀ (comps : List (List Char)) (c : List Char),
    c ∈ comps → pyInt c = none → parseComps comps = none := by
  intro comps
  induction comps with
  | nil =>
    intro c hc
    simp at hc
  | cons c0 cs ih =>
    intro c hc hnone
    rcases List.mem_cons.mp hc with rfl | hc'
    · unfold parseComps
      rw [hnone]
    · unfold parseComps
      rw [ih c hc' hnone]
      cases pyInt c0 <;> rfl

theorem normalize_unfold (ver : String) (f : Bool) :
    _normalize_version ver f =
      if (stripPlusL ver.data).isEmpty then some ⟨[], endsPlus ver.data⟩
      else
        match parseComps (splitVer (stripPlusL ver.data) []) with
        | none => none
        | some norm =>
          if f && !norm.isEmpty && norm.headD 0 == 1 then
            some ⟨norm.tail, endsPlus ver.data⟩
          else
            some ⟨norm, endsPlus ver.data⟩ := rfl

/-- C7: normalization does not distinguish '.' from '-' — two spellings of
the same components with different separator choices normalize to the
identical key — and a component rejected by `int()` makes the whole string
a normalization failure. -/
theorem c7_separator_independence (v w : String) (f : Bool) (comp : List Char) :
    (sepEquivB v.data w.data = true →
      _normalize_version v f = _normalize_version w f) ∧
    (stripPlusL v.data ≠ [] → comp ∈ splitVer (stripPlusL v.data) [] →
      pyInt comp = none → _normalize_version v f = none) := by
  constructor
  · intro h
    have hplus : endsPlus v.data = endsPlus w.data := sepEquivB_endsPlus _ _ h
    have hbody : sepEquivB (stripPlusL v.data) (stripPlusL w.data) = true := by
      unfold stripPlusL
      rw [hplus]
      by_cases hp : endsPlus w.data = true
      · rw [if_pos hp, if_pos hp]
        exact sepEquivB_dropLast _ _ h
      · rw [if_neg hp, if_neg hp]
        exact h
    have hlen : (stripPlusL v.data).length = (stripPlusL w.data).length :=
      sepEquivB_length _ _ hbody
    rw [normalize_unfold, normalize_unfold, hplus,
      sepEquivB_split _ _ [] hbody]
    by_cases he : (stripPlusL v.data).isEmpty = true
    · have he2 : (stripPlusL w.data).isEmpty = true := by
        rw [List.isEmpty_iff] at he ⊢
        rw [← List.length_eq_zero, ← hlen, List.length_eq_zero]
        exact he
      rw [if_pos he, if_pos he2]
    · have he2 : ¬ (stripPlusL w.data).isEmpty = true := by
        rw [List.isEmpty_iff] at he ⊢
        rw [← List.length_eq_zero, ← hlen, List.length_eq_zero]
        exact he
      rw [if_neg he, if_neg he2]
  · intro hne hmem hnone
    rw [normalize_unfold]
    rw [if_neg (by rw [List.isEmpty_iff]; exact hne)]
    rw [parseComps_mem_none _ comp hmem hnone]

theorem c7_witness :
    _normalize_version "11.0.1" false = _normalize_version "11-0-1" false ∧
      _normalize_version "11.x" false = none := by
  constructor
  · exact (c7_separator_independence "11.0.1" "11-0-1" false []).1 (by decide)
  · exact (c7_separator_independence "11.x" "11.x" false ['x']).2
      (by decide) (by decide) (by decide)

theorem wfJsonL_mem : ∀ (xs : List Json) (x : Json), wfJsonL xs = true →
    x ∈ xs → wfJson x = true := by
  intro xs
  induction xs with
  | nil =>
    intro x _ hx
    simp at hx
  | cons y ys ih =>
    intro x hw hx
    rw [wfJsonL] at hw
    rw [Bool.and_eq_true] at hw
    rcases List.mem_cons.mp hx with rfl | hx'
    · exact hw.1
    · exact ih x hw.2 hx'

theorem wfJsonObj_mem : ∀ (es : List (String × Json)) (k : String) (v : Json),
    wfJsonObj es = true → (k, v) ∈ es → wfJson v = true := by
  intro es
  induction es with
  | nil =>
    intro k v _ hx
    simp at hx
  | cons e es' ih =>
    intro k v hw hx
    obtain ⟨ek, ev⟩ := e
    rw [wfJsonObj] at hw
    rw [Bool.and_eq_true] at hw
    rcases List.mem_cons.mp hx with he | hx'
    · injection he with he1 he2
      rw [he2]
      exact hw.1
    · exact ih k v hw.2 hx'

theorem jsonEqvL_length : ∀ (xs ys : List Json), jsonEqvL xs ys = true →
    xs.length = ys.length := by
  intro xs
  induction xs with
  | nil =>
    intro ys h
    cases ys with
    | nil => rfl
    | cons y ys' => simp [jsonEqvL] at h
  | cons x xs' ih =>
    intro ys h
    cases ys with
    | nil => simp [jsonEqvL] at h
    | cons y ys' =>
      rw [jsonEqvL, Bool.and_eq_true] at h
      simp [ih ys' h.2]

theorem jsonEqvObj_mem : ∀ (ea eb : List (String × Json)),
    jsonEqvObj ea eb = true → ∀ k v, (k, v) ∈ ea →
    ∃ w, lookupStr eb k = some w ∧ jsonEqv v w = true := by
  intro ea
  induction ea with
  | nil =>
    intro eb _ k v hx
    simp at hx
  | cons e es ih =>
    intro eb h k v hx
    obtain ⟨ek, ev⟩ := e
    rw [jsonEqvObj, Bool.and_eq_true] at h
    rcases List.mem_cons.mp hx with he | hx'
    · injection he with he1 he2
      subst he1
      subst he2
      cases hl : lookupStr eb k with
      | none =>
        rw [hl] at h
        simp at h
      | some w =>
        rw [hl] at h
        exact ⟨w, rfl, h.1⟩
    · exact ih eb h.2 k v hx'

theorem lookupStr_mem {m : List (String × α)} {k : String} {w : α}
    (h : lookupStr m k = some w) : (k, w) ∈ m := by
  unfold lookupStr at h
  cases hf : m.find? (fun p => p.1 == k) with
  | none =>
    rw [hf] at h
    cases h
  | some p =>
    rw [hf] at h
    injection h with h2
    have hmem := List.mem_of_find?_eq_some hf
    have hpk : (fun q : String × α => q.1 == k) p = true :=
      @List.find?_some (String × α) (fun q => q.1 == k) p m hf
    have hk : p.1 = k := by simpa using hpk
    have : p = (k, w) := by
      obtain ⟨p1, p2⟩ := p
      simp only at hk h2
      rw [hk, h2]
    rw [← this]
    exact hmem

theorem lookupStr_of_mem_distinct : ∀ (m : List (String × Json)) (k : String)
    (w : Json), distinctKeys m = true → (k, w) ∈ m →
    lookupStr m k = some w := by
  intro m
  induction m with
  | nil =>
    intro k w _ hx
    simp at hx
  | cons e es ih =>
    intro k w hd hx
    obtain ⟨ek, ev⟩ := e
    rw [distinctKeys, Bool.and_eq_true] at hd
    rcases List.mem_cons.mp hx with he | hx'
    · injection he with he1 he2
      subst he1
      subst he2
      unfold lookupStr
      rw [List.find?_cons_of_pos _ (by simp)]
      rfl
    · have hkne : ¬ (ek == k) = true := by
        intro hc
        have hek : ek = k := by simpa using hc
        subst hek
        have := List.all_eq_true.mp hd.1 (ek, w) hx'
        simp at this
      unfold lookupStr
      rw [List.find?_cons_of_neg _ (by simpa using hkne)]
      exact ih k w hd.2 hx'

theorem distinctKeys_nodup : ∀ (es : List (String × Json)),
    distinctKeys es = true → (es.map Prod.fst).Nodup := by
  intro es
  induction es with
  | nil =>
    intro _
    simp
  | cons e es' ih =>
    intro hd
    obtain ⟨ek, ev⟩ := e
    rw [distinctKeys, Bool.and_eq_true] at hd
    rw [List.map_cons, List.nodup_cons]
    refine ⟨?_, ih hd.2⟩
    intro hc
    obtain ⟨p, hp, hpk⟩ := List.mem_map.mp hc
    have := List.all_eq_true.mp hd.1 p hp
    rw [hpk] at this
    simp at this

theorem sizeOf_mem_obj {es : List (String × Json)} {k : String} {v : Json}
    (h : (k, v) ∈ es) : sizeOf v < sizeOf (Json.obj es) := by
  have hm := List.sizeOf_lt_of_mem h
  simp only [Prod.mk.sizeOf_spec] at hm
  simp only [Json.obj.sizeOf_spec]
  omega

theorem sizeOf_mem_arr {xs : List Json} {x : Json} (h : x ∈ xs) :
    sizeOf x < sizeOf (Json.arr xs) := by
  have hm := List.sizeOf_lt_of_mem h
  simp only [Json.arr.sizeOf_spec]
  omega

theorem assoc_ext : ∀ (l1 l2 : List (String × α)),
    l1.map Prod.fst = l2.map Prod.fst →
    (∀ k x y, (k, x) ∈ l1 → (k, y) ∈ l2 → x = y) → l1 = l2 := by
  intro l1
  induction l1 with
  | nil =>
    intro l2 hk _
    cases l2 with
    | nil => rfl
    | cons e es => simp at hk
  | cons e1 es1 ih =>
    intro l2 hk hv
    cases l2 with
    | nil => simp at hk
    | cons e2 es2 =>
      obtain ⟨k1, x1⟩ := e1
      obtain ⟨k2, x2⟩ := e2
      simp only [List.map_cons, List.cons.injEq] at hk
      obtain ⟨hk12, hktail⟩ := hk
      subst hk12
      have hx : x1 = x2 :=
        hv k1 x1 x2 (List.mem_cons_self _ _) (List.mem_cons_self _ _)
      subst hx
      rw [ih es2 hktail ?_]
      intro k x y hx1 hy1
      exact hv k x y (List.mem_cons_of_mem _ hx1) (List.mem_cons_of_mem _ hy1)

theorem fstLeB_total (x y : String × α) :
    fstLeB x y = true ∨ fstLeB y x = true := by
  unfold fstLeB
  rcases le_total x.1 y.1 with h | h
  · left
    simpa using h
  · right
    simpa using h

theorem fstLeB_trans (x y z : String × α) (h1 : fstLeB x y = true)
    (h2 : fstLeB y z = true) : fstLeB x z = true := by
  unfold fstLeB at h1 h2 ⊢
  rw [decide_eq_true_eq] at h1 h2 ⊢
  exact le_trans h1 h2

/-- Two association lists whose key multisets agree (with distinct keys)
and whose values agree at equal keys sort to the same list under the
stable key sort. -/
theorem sortedAssoc_eq (pa pb : List (String × α))
    (hperm : (pa.map Prod.fst).Perm (pb.map Prod.fst))
    (hvals : ∀ k x y, (k, x) ∈ pa → (k, y) ∈ pb → x = y) :
    insertionSort fstLeB pa = insertionSort fstLeB pb := by
  have hpa : List.Pairwise (fun x y => fstLeB x y = true)
      (insertionSort fstLeB pa) :=
    insertionSort_pairwise fstLeB fstLeB_trans fstLeB_total pa
  have hpb : List.Pairwise (fun x y => fstLeB x y = true)
      (insertionSort fstLeB pb) :=
    insertionSort_pairwise fstLeB fstLeB_trans fstLeB_total pb
  have hsa : List.Sorted (fun a b : String => a ≤ b)
      ((insertionSort fstLeB pa).map Prod.fst) := by
    rw [List.Sorted, List.pairwise_map]
    refine hpa.imp ?_
    intro a b hab
    simpa [fstLeB] using hab
  have hsb : List.Sorted (fun a b : String => a ≤ b)
      ((insertionSort fstLeB pb).map Prod.fst) := by
    rw [List.Sorted, List.pairwise_map]
    refine hpb.imp ?_
    intro a b hab
    simpa [fstLeB] using hab
  have hkperm : ((insertionSort fstLeB pa).map Prod.fst).Perm
      ((insertionSort fstLeB pb).map Prod.fst) :=
    (((insertionSort_perm fstLeB pa).map Prod.fst).trans hperm).trans
      ((insertionSort_perm fstLeB pb).map Prod.fst).symm
  have hkeys : (insertionSort fstLeB pa).map Prod.fst
      = (insertionSort fstLeB pb).map Prod.fst :=
    List.eq_of_perm_of_sorted hkperm hsa hsb
  refine assoc_ext _ _ hkeys ?_
  intro k x y hx hy
  exact hvals k x y ((insertionSort_perm fstLeB pa).mem_iff.mp hx)
    ((insertionSort_perm fstLeB pb).mem_iff.mp hy)

theorem dump_arr (xs : List Json) (d : Nat) :
    pyJsonDump (.arr xs) d =
      if xs.isEmpty then "[]"
      else
        "[\n"
          ++ joinSep ",\n"
            (xs.map (fun x => jsonInd (d + 1) ++ pyJsonDump x (d + 1)))
          ++ "\n" ++ jsonInd d ++ "]" := by
  rw [pyJsonDump]
  rw [List.attach_map_val xs (fun x => jsonInd (d + 1) ++ pyJsonDump x (d + 1))]

theorem dump_obj (es : List (String × Json)) (d : Nat) :
    pyJsonDump (.obj es) d =
      if es.isEmpty then "\x7b\x7d"
      else
        "\x7b\n"
          ++ joinSep ",\n"
            ((insertionSort fstLeB
              (es.map (fun e => (e.1,
                jsonInd (d + 1) ++ pyJsonQuote e.1 ++ ": "
                  ++ pyJsonDump e.2 (d + 1))))).map (fun r => r.2))
          ++ "\n" ++ jsonInd d ++ "\x7d" := by
  rw [pyJsonDump]
  rw [List.attach_map_val es (fun e => (e.1,
    jsonInd (d + 1) ++ pyJsonQuote e.1 ++ ": " ++ pyJsonDump e.2 (d + 1)))]

theorem eqvObj_keys_perm (ea eb : List (String × Json))
    (hlen : ea.length = eb.length) (heqv : jsonEqvObj ea eb = true)
    (hda : distinctKeys ea = true) :
    (ea.map Prod.fst).Perm (eb.map Prod.fst) := by
  have hsub : ea.map Prod.fst ⊆ eb.map Prod.fst := by
    intro k hk
    obtain ⟨p, hp, hpk⟩ := List.mem_map.mp hk
    obtain ⟨pk, pv⟩ := p
    obtain ⟨w, hw, _⟩ := jsonEqvObj_mem ea eb heqv pk pv hp
    have hmem := lookupStr_mem hw
    subst hpk
    exact List.mem_map.mpr ⟨(pk, w), hmem, rfl⟩
  have hsp := (distinctKeys_nodup ea hda).subperm hsub
  refine hsp.perm_of_length_le ?_
  simp [hlen]

theorem jsonEqvL_map_dump (d : Nat) : ∀ (xs ys : List Json),
    jsonEqvL xs ys = true →
    (∀ x ∈ xs, ∀ y : Json, wfJson x = true → wfJson y = true →
      jsonEqv x y = true → pyJsonDump x (d + 1) = pyJsonDump y (d + 1)) →
    wfJsonL xs = true → wfJsonL ys = true →
    xs.map (fun x => jsonInd (d + 1) ++ pyJsonDump x (d + 1))
      = ys.map (fun y => jsonInd (d + 1) ++ pyJsonDump y (d + 1)) := by
  intro xs
  induction xs with
  | nil =>
    intro ys h _ _ _
    cases ys with
    | nil => rfl
    | cons y ys' => simp [jsonEqvL] at h
  | cons x xs' ih =>
    intro ys h hIH hwx hwy
    cases ys with
    | nil => simp [jsonEqvL] at h
    | cons y ys' =>
      rw [jsonEqvL, Bool.and_eq_true] at h
      rw [wfJsonL, Bool.and_eq_true] at hwx hwy
      simp only [List.map_cons, List.cons.injEq]
      constructor
      · rw [hIH x (List.mem_cons_self _ _) y hwx.1 hwy.1 h.1]
      · exact ih ys' h.2
          (fun x2 hx2 => hIH x2 (List.mem_cons_of_mem _ hx2)) hwx.2 hwy.2

theorem jsonEqv_dump_aux : ∀ (n : Nat) (a b : Json), sizeOf a ≤ n →
    wfJson a = true → wfJson b = true → jsonEqv a b = true →
    ∀ d, pyJsonDump a d = pyJsonDump b d := by
  intro n
  induction n with
  | zero =>
    intro a b hs _ _ _ _
    exfalso
    cases a <;> simp at hs
  | succ n ih =>
    intro a b hs hwa hwb heq d
    cases a with
    | null =>
      cases b with
      | null => rfl
      | bool y => simp [jsonEqv] at heq
      | int y => simp [jsonEqv] at heq
      | str y => simp [jsonEqv] at heq
      | arr ys => simp [jsonEqv] at heq
      | obj eb => simp [jsonEqv] at heq
    | bool x =>
      cases b with
      | bool y =>
        have : x = y := by simpa [jsonEqv] using heq
        rw [this]
      | null => simp [jsonEqv] at heq
      | int y => simp [jsonEqv] at heq
      | str y => simp [jsonEqv] at heq
      | arr ys => simp [jsonEqv] at heq
      | obj eb => simp [jsonEqv] at heq
    | int x =>
      cases b with
      | int y =>
        have : x = y := by simpa [jsonEqv] using heq
        rw [this]
      | null => simp [jsonEqv] at heq
      | bool y => simp [jsonEqv] at heq
      | str y => simp [jsonEqv] at heq
      | arr ys => simp [jsonEqv] at heq
      | obj eb => simp [jsonEqv] at heq
    | str x =>
      cases b with
      | str y =>
        have : x = y := by simpa [jsonEqv] using heq
        rw [this]
      | null => simp [jsonEqv] at heq
      | bool y => simp [jsonEqv] at heq
      | int y => simp [jsonEqv] at heq
      | arr ys => simp [jsonEqv] at heq
      | obj eb => simp [jsonEqv] at heq
    | arr xs =>
      cases b with
      | arr ys =>
        have heq' : jsonEqvL xs ys = true := by simpa [jsonEqv] using heq
        have hwa' : wfJsonL xs = true := by simpa [wfJson] using hwa
        have hwb' : wfJsonL ys = true := by simpa [wfJson] using hwb
        have hlen := jsonEqvL_length xs ys heq'
        rw [dump_arr, dump_arr]
        by_cases hxe : xs.isEmpty = true
        · have hye : ys.isEmpty = true := by
            rw [List.isEmpty_iff] at hxe ⊢
            rw [← List.length_eq_zero, ← hlen, List.length_eq_zero]
            exact hxe
          rw [if_pos hxe, if_pos hye]
        · have hye : ¬ ys.isEmpty = true := by
            rw [List.isEmpty_iff] at hxe ⊢
            rw [← List.length_eq_zero, ← hlen, List.length_eq_zero]
            exact hxe
          rw [if_neg hxe, if_neg hye]
          have hmap := jsonEqvL_map_dump d xs ys heq' ?_ hwa' hwb'
          · rw [hmap]
          · intro x hx y hwx hwy hexy
            refine ih x y ?_ hwx hwy hexy (d + 1)
            have := sizeOf_mem_arr hx
            omega
      | null => simp [jsonEqv] at heq
      | bool y => simp [jsonEqv] at heq
      | int y => simp [jsonEqv] at heq
      | str y => simp [jsonEqv] at heq
      | obj eb => simp [jsonEqv] at heq
    | obj ea =>
      cases b with
      | obj eb =>
        have heq' : ea.length = eb.length ∧ jsonEqvObj ea eb = true := by
          simpa [jsonEqv] using heq
        have hwa' : distinctKeys ea = true ∧ wfJsonObj ea = true := by
          simpa [wfJson] using hwa
        have hwb' : distinctKeys eb = true ∧ wfJsonObj eb = true := by
          simpa [wfJson] using hwb
        rw [dump_obj, dump_obj]
        by_cases hxe : ea.isEmpty = true
        · have hye : eb.isEmpty = true := by
            rw [List.isEmpty_iff] at hxe ⊢
            rw [← List.length_eq_zero, ← heq'.1, List.length_eq_zero]
            exact hxe
          rw [if_pos hxe, if_pos hye]
        · have hye : ¬ eb.isEmpty = true := by
            rw [List.isEmpty_iff] at hxe ⊢
            rw [← List.length_eq_zero, ← heq'.1, List.length_eq_zero]
            exact hxe
          rw [if_neg hxe, if_neg hye]
          have hsorted : insertionSort fstLeB
              (ea.map (fun e => (e.1, jsonInd (d + 1) ++ pyJsonQuote e.1
                ++ ": " ++ pyJsonDump e.2 (d + 1))))
              = insertionSort fstLeB
              (eb.map (fun e => (e.1, jsonInd (d + 1) ++ pyJsonQuote e.1
                ++ ": " ++ pyJsonDump e.2 (d + 1)))) := by
            refine sortedAssoc_eq _ _ ?_ ?_
            · have hka : (ea.map (fun e => (e.1, jsonInd (d + 1)
                  ++ pyJsonQuote e.1 ++ ": " ++ pyJsonDump e.2 (d + 1)))).map
                    Prod.fst = ea.map Prod.fst := by
                rw [List.map_map]
                rfl
              have hkb : (eb.map (fun e => (e.1, jsonInd (d + 1)
                  ++ pyJsonQuote e.1 ++ ": " ++ pyJsonDump e.2 (d + 1)))).map
                    Prod.fst = eb.map Prod.fst := by
                rw [List.map_map]
                rfl
              rw [hka, hkb]
              exact eqvObj_keys_perm ea eb heq'.1 heq'.2 hwa'.1
            · intro k x y hx hy
              obtain ⟨e1, he1, hpe1⟩ := List.mem_map.mp hx
              obtain ⟨e2, he2, hpe2⟩ := List.mem_map.mp hy
              obtain ⟨k1, v1⟩ := e1
              obtain ⟨k2, v2⟩ := e2
              injection hpe1 with hk1 hx1
              injection hpe2 with hk2 hy1
              dsimp only at hk1 hx1 hk2 hy1
              rw [hk1] at he1 hx1
              rw [hk2] at he2 hy1
              obtain ⟨w, hw, hvw⟩ := jsonEqvObj_mem ea eb heq'.2 k v1 he1
              have hl2 := lookupStr_of_mem_distinct eb k v2 hwb'.1 he2
              have hwv : w = v2 := by
                have := hw.symm.trans hl2
                injection this
              subst hwv
              have hd2 : pyJsonDump v1 (d + 1) = pyJsonDump w (d + 1) := by
                refine ih v1 w ?_ (wfJsonObj_mem ea k v1 hwa'.2 he1)
                  (wfJsonObj_mem eb k w hwb'.2 he2) hvw (d + 1)
                have := sizeOf_mem_obj he1
                omega
              rw [← hx1, ← hy1, hd2]
          rw [hsorted]
      | null => simp [jsonEqv] at heq
      | bool y => simp [jsonEqv] at heq
      | int y => simp [jsonEqv] at heq
      | str y => simp [jsonEqv] at heq
      | arr ys => simp [jsonEqv] at heq

/-- C8: persisting the fetched catalog is deterministic and canonical: any
two parsed documents that are equal as Python objects (order-insensitive
dict equality, for documents whose objects have distinct keys as parsed
dicts do) serialize to byte-identical cache file contents under
`json.dump(..., indent=2, sort_keys=True)` with ASCII encoding and "\n"
line endings. -/
theorem c8_canonical_serialization (a b : Json) (hwa : wfJson a = true)
    (hwb : wfJson b = true) (heqv : jsonEqv a b = true) :
    _fetch_index_payload a = _fetch_index_payload b :=
  jsonEqv_dump_aux (sizeOf a) a b (le_refl _) hwa hwb heqv 0

theorem c8_witness :
    wfJson sampleDocA = true ∧ wfJson sampleDocB = true ∧
      jsonEqv sampleDocA sampleDocB = true ∧
      _fetch_index_payload sampleDocA = _fetch_index_payload sampleDocB :=
  ⟨by decide, by decide, by decide,
    c8_canonical_serialization sampleDocA sampleDocB (by decide) (by decide)
      (by decide)⟩
